import Mathlib

/-!
Verification of the Custom GPT Schema Generator (src/src/CustomGPTSchemaGenerator.tsx).

The component keeps a collection of independent pieces of editable state
(strings, booleans and lists), derives an immutable output document from them
on every change, and exports that document as JSON.  This file shallowly embeds
that state, the derivation, the list mutators, and the JSON serialization, and
proves the specification claims about them.

Modelling conventions:
* JavaScript strings are Lean `String`s (lists of unicode scalar values).
* JavaScript numbers are modelled by `JsNum`: NaN, the two infinities, or an
  exact rational.  `Number(...)` on a string is modelled by `jsNumber`, which
  follows the ECMA `StringNumericLiteral` grammar (whitespace trimming, empty
  string to 0, signed decimal literals with fraction and exponent, `Infinity`,
  and `0x`/`0o`/`0b` integer literals) and maps values at or beyond the IEEE
  double overflow threshold to the corresponding infinity.  Finite values are
  kept exact rather than rounded to doubles; none of the verified claims is
  sensitive to double rounding.
* React state setters are modelled by total functions `GenState → GenState`.
* The `useMemo` derivation reads the clock (`new Date().toISOString()`), so the
  derived document is a function of the field state and the instant `now`.
-/

/-- JavaScript whitespace (the ECMA WhiteSpace and LineTerminator sets), as
used by String.prototype.trim and by Number coercion of strings. -/
def jsWsChar (c : Char) : Bool :=
  [9, 10, 11, 12, 13, 32, 160, 0x1680, 0x2028, 0x2029, 0x202f,
    0x205f, 0x3000, 0xfeff].contains c.toNat
  || (decide (0x2000 ≤ c.toNat) && decide (c.toNat ≤ 0x200a))

/-- Drop JS whitespace from the front of a character list. -/
def jsTrimLeftChars (cs : List Char) : List Char := cs.dropWhile jsWsChar

/-- Drop JS whitespace from the back of a character list. -/
def jsTrimRightChars (cs : List Char) : List Char :=
  (cs.reverse.dropWhile jsWsChar).reverse

/-- Character-list version of String.prototype.trim. -/
def jsTrimChars (cs : List Char) : List Char :=
  jsTrimRightChars (jsTrimLeftChars cs)

/-- Model of JavaScript String.prototype.trim. -/
def jsTrim (s : String) : String := String.mk (jsTrimChars s.data)

/-- A JavaScript number: NaN, an infinity, or a finite value (kept as an exact
rational; see the header comment on double rounding). -/
inductive JsNum where
  | nan
  | inf
  | ninf
  | fin (q : ℚ)
deriving DecidableEq

/-- ASCII decimal digit test (by code point: 48-57). -/
def isDig (c : Char) : Bool := decide (48 ≤ c.toNat) && decide (c.toNat ≤ 57)

/-- Value of a big-endian list of decimal digit characters. -/
def digitsVal (cs : List Char) : ℕ :=
  cs.foldl (fun a c => 10 * a + (c.toNat - 48)) 0

/-- Value of one hexadecimal digit character (46 for non-digits; callers
validate first). -/
def hexDigVal (c : Char) : ℕ :=
  if 48 ≤ c.toNat ∧ c.toNat ≤ 57 then c.toNat - 48
  else if 97 ≤ c.toNat ∧ c.toNat ≤ 102 then c.toNat - 87
  else if 65 ≤ c.toNat ∧ c.toNat ≤ 70 then c.toNat - 55
  else 46

/-- Digit test for radix 2, 8 or 16. -/
def isRadixDig (b : ℕ) (c : Char) : Bool :=
  if b = 16 then hexDigVal c < 16
  else isDig c && decide (c.toNat - 48 < b)

/-- Value of a big-endian list of radix-`b` digit characters. -/
def radixVal (b : ℕ) (cs : List Char) : ℕ :=
  cs.foldl (fun a c => b * a + hexDigVal c) 0

/-- The IEEE double overflow threshold, 2 ^ 1024 - 2 ^ 970 (written as its
decimal literal so that the kernel can evaluate comparisons against it): a
real with magnitude at or above this rounds to an infinity. -/
def dblOverflow : ℚ :=
  mkRat 179769313486231580793728971405303415079934132710037826936173778980444968292764750946649017977587207096330286416692887910946555547851940402630657488671505820681908902000708383676273854845817711531764475730270069855571366959622842914819860834936475292719074168444365510704342711559699508093042880177904174497792 1

/-- Clamp an exact rational to a JS number, sending overflowing magnitudes to
the infinities (double rounding of in-range values is not modelled). -/
def capQ (q : ℚ) : JsNum :=
  if dblOverflow ≤ q then JsNum.inf
  else if q ≤ -dblOverflow then JsNum.ninf
  else JsNum.fin q

/-- The rational `n / 10 ^ k`: the value of an unsigned decimal literal with
`k` digits after the (shifted) decimal point. -/
def decQ (n : ℕ) (k : ℕ) : ℚ := mkRat n (10 ^ k)

/-- Parse the exponent part of a decimal literal, given the mantissa `n` and
decimal shift `k` accumulated so far.  Returns the adjusted `(n, k)` pair, or
none if the input is not exactly an optional exponent part. -/
def parseExpTail (n : ℕ) (k : ℕ) : List Char → Option (ℕ × ℕ)
  | [] => some (n, k)
  | e :: rest =>
    if e = 'e' ∨ e = 'E' then
      let (eneg, rest2) :=
        match rest with
        | '+' :: t => (false, t)
        | '-' :: t => (true, t)
        | t => (false, t)
      let ds := rest2.takeWhile isDig
      if ds.isEmpty ∨ ¬(rest2.dropWhile isDig).isEmpty then none
      else
        let ex := digitsVal ds
        if eneg then some (n, k + ex) else some (n * 10 ^ ex, k)
    else none

/-- Parse an unsigned decimal literal (`DecimalDigits . DecimalDigits?`,
`. DecimalDigits` or `DecimalDigits`, with optional exponent), which must span
the whole input.  Returns `(n, k)` with value `n / 10 ^ k`. -/
def parseUnsignedDec (cs : List Char) : Option (ℕ × ℕ) :=
  let ds := cs.takeWhile isDig
  let r := cs.dropWhile isDig
  match r with
  | '.' :: r2 =>
    let fs := r2.takeWhile isDig
    if ds.isEmpty && fs.isEmpty then none
    else parseExpTail (digitsVal ds * 10 ^ fs.length + digitsVal fs) fs.length
      (r2.dropWhile isDig)
  | _ =>
    if ds.isEmpty then none else parseExpTail (digitsVal ds) 0 r

/-- Model of JavaScript `Number(s)` for a string argument (ECMA ToNumber via
StringNumericLiteral).  See the header comment for the abstractions taken. -/
def jsNumber (s : String) : JsNum :=
  let cs := jsTrimChars s.data
  match cs with
  | [] => JsNum.fin 0
  | '0' :: c :: rest =>
    if c = 'x' ∨ c = 'X' then
      if ¬rest.isEmpty && rest.all (isRadixDig 16) then capQ (radixVal 16 rest)
      else JsNum.nan
    else if c = 'o' ∨ c = 'O' then
      if ¬rest.isEmpty && rest.all (isRadixDig 8) then capQ (radixVal 8 rest)
      else JsNum.nan
    else if c = 'b' ∨ c = 'B' then
      if ¬rest.isEmpty && rest.all (isRadixDig 2) then capQ (radixVal 2 rest)
      else JsNum.nan
    else
      match parseUnsignedDec cs with
      | some (n, k) => capQ (decQ n k)
      | none => JsNum.nan
  | _ =>
    let (neg, cs2) :=
      match cs with
      | '+' :: t => (false, t)
      | '-' :: t => (true, t)
      | t => (false, t)
    if cs2 = "Infinity".data then
      if neg then JsNum.ninf else JsNum.inf
    else
      match parseUnsignedDec cs2 with
      | some (n, k) => capQ (if neg then -decQ n k else decQ n k)
      | none => JsNum.nan

/-- Model of `x || 0` for a JS number `x`: NaN and (signed) zero are falsy and
give 0, everything else passes through. -/
def jsOrZero : JsNum → JsNum
  | JsNum.nan => JsNum.fin 0
  | JsNum.fin q => if q = 0 then JsNum.fin 0 else JsNum.fin q
  | x => x

/-- Model of `Math.max(0, x)`: NaN propagates, negatives (including -Infinity)
clamp to 0. -/
def jsMax0 : JsNum → JsNum
  | JsNum.nan => JsNum.nan
  | JsNum.inf => JsNum.inf
  | JsNum.ninf => JsNum.fin 0
  | JsNum.fin q => JsNum.fin (max 0 q)

/-- The derivation-time coercion of the retention-days text field:
`Math.max(0, Number(retention) || 0)` (CustomGPTSchemaGenerator.tsx line 202). -/
def retentionDays (retention : String) : JsNum :=
  jsMax0 (jsOrZero (jsNumber retention))

/-- Persona record of the output document (tsx line 198; the select inputs
store plain strings, the `as` casts in the source are type-level only). -/
structure PersonaStyle where
  writingTone : String
  emojiUse : String
  responseLength : String
deriving DecidableEq

/-- Auth descriptor of a custom action, as reachable from the editor: the
`type` select always sets `type`, the instructions input is optional. -/
structure AuthSpec where
  type : String
  instructions : Option String
deriving DecidableEq

/-- A custom action record, as reachable from the editor: the draft literal
always carries `name`, `type` and `specUrlOrInline`; `auth` appears once the
auth controls are touched.  (`description`, `rateLimitPerMinute` and
`allowedDomains` exist in the source type but no control ever sets them.) -/
structure CustomAction where
  name : String
  type : String
  specUrlOrInline : String
  auth : Option AuthSpec
deriving DecidableEq

/-- Knowledge section of the output document (tsx line 201). -/
structure KnowledgePolicy where
  enabled : Bool
  documents : List String
deriving DecidableEq

/-- Memory section of the output document (tsx line 202). -/
structure MemoryPolicy where
  enabled : Bool
  scope : String
  dataRetentionDays : JsNum
deriving DecidableEq

/-- Safety section of the output document (tsx line 203). -/
structure SafetyPolicy where
  jailbreakDefense : Bool
  blockDisallowedContent : Bool
  piiRedaction : Bool
  customDisallowedPhrases : List String
deriving DecidableEq

/-- A conversation starter (tsx line 16). -/
structure ConversationStarter where
  title : String
  prompt : String
deriving DecidableEq

/-- The Output Document (the source type `CustomGPTConfig`, in the shape the
`output` memo actually produces: every optional field is present). -/
structure CustomGPTConfig where
  schemaVersion : String
  name : String
  description : String
  instructions : String
  language : String
  persona : PersonaStyle
  builtInTools : List String
  customActions : List CustomAction
  knowledge : KnowledgePolicy
  memory : MemoryPolicy
  safety : SafetyPolicy
  conversationStarters : List ConversationStarter
  sampleQuestions : List String
  tags : List String
  createdAt : String
deriving DecidableEq

/-- The tracked editor state: one field per `useState` hook that feeds the
derivation or a mutator (tsx lines 138-181). -/
structure GenState where
  name : String
  description : String
  instructions : String
  language : String
  tone : String
  emoji : String
  lengthPref : String
  toolWeb : Bool
  toolCode : Bool
  toolRetrieval : Bool
  toolImage : Bool
  toolVision : Bool
  actions : List CustomAction
  actionDraft : CustomAction
  knowledgeEnabled : Bool
  knowledgeDocs : List String
  docDraft : String
  memoryEnabled : Bool
  memoryScope : String
  retention : String
  jailbreakDefense : Bool
  blockDisallowed : Bool
  piiRedaction : Bool
  customPhrases : List String
  phraseDraft : String
  starters : List ConversationStarter
  starterTitle : String
  starterPrompt : String
  sampleQs : List String
  sampleDraft : String
  tags : List String
  tagDraft : String
deriving DecidableEq

/-- The `builtIn` array constructed by conditional pushes in the derivation
(tsx lines 189-194): each enabled flag appends its tool name, in program
order web, code, retrieval, image, vision. -/
def builtInList (w c r i v : Bool) : List String :=
  (if w then ["web"] else []) ++ (if c then ["code"] else [])
    ++ (if r then ["retrieval"] else []) ++ (if i then ["image"] else [])
    ++ (if v then ["vision"] else [])

/-- The derived output document (the `useMemo` body, tsx lines 188-209).
`now` is the value of `new Date().toISOString()` at derivation time. -/
def output (s : GenState) (now : String) : CustomGPTConfig :=
  { schemaVersion := "1.0"
    name := s.name
    description := s.description
    instructions := s.instructions
    language := s.language
    persona :=
      { writingTone := s.tone, emojiUse := s.emoji,
        responseLength := s.lengthPref }
    builtInTools :=
      builtInList s.toolWeb s.toolCode s.toolRetrieval s.toolImage s.toolVision
    customActions := s.actions
    knowledge := { enabled := s.knowledgeEnabled, documents := s.knowledgeDocs }
    memory :=
      { enabled := s.memoryEnabled, scope := s.memoryScope,
        dataRetentionDays := retentionDays s.retention }
    safety :=
      { jailbreakDefense := s.jailbreakDefense,
        blockDisallowedContent := s.blockDisallowed,
        piiRedaction := s.piiRedaction,
        customDisallowedPhrases := s.customPhrases }
    conversationStarters := s.starters
    sampleQuestions := s.sampleQs
    tags := s.tags
    createdAt := now }

/-- The reset value of the action draft (tsx lines 157 and 212). -/
def emptyActionDraft : CustomAction :=
  { name := "", type := "openapi", specUrlOrInline := "", auth := none }

/-- Model of JS `Array.prototype.filter` with an index-using callback, as in
`p.filter((_, idx) => idx !== i)`. -/
def filterIdx (f : α → ℕ → Bool) (l : List α) : List α :=
  (l.enum.filter (fun p => f p.2 p.1)).map (fun p => p.2)

/-- `addAction` (tsx line 212): validates `actionDraft.name.trim()` truthy,
then appends the draft as written and resets it. -/
def addAction (s : GenState) : GenState :=
  if jsTrim s.actionDraft.name = "" then s
  else { s with actions := s.actions ++ [s.actionDraft],
                actionDraft := emptyActionDraft }

/-- `removeAction` (tsx line 213). -/
def removeAction (s : GenState) (i : ℕ) : GenState :=
  { s with actions := filterIdx (fun _ idx => idx ≠ i) s.actions }

/-- `addDoc` (tsx line 214): validates the draft trims nonempty, appends the
trimmed draft, clears the draft. -/
def addDoc (s : GenState) : GenState :=
  if jsTrim s.docDraft = "" then s
  else { s with knowledgeDocs := s.knowledgeDocs ++ [jsTrim s.docDraft],
                docDraft := "" }

/-- `removeDoc` (tsx line 215). -/
def removeDoc (s : GenState) (i : ℕ) : GenState :=
  { s with knowledgeDocs := filterIdx (fun _ idx => idx ≠ i) s.knowledgeDocs }

/-- `addPhrase` (tsx line 216). -/
def addPhrase (s : GenState) : GenState :=
  if jsTrim s.phraseDraft = "" then s
  else { s with customPhrases := s.customPhrases ++ [jsTrim s.phraseDraft],
                phraseDraft := "" }

/-- `removePhrase` (tsx line 217). -/
def removePhrase (s : GenState) (i : ℕ) : GenState :=
  { s with customPhrases := filterIdx (fun _ idx => idx ≠ i) s.customPhrases }

/-- `addStarter` (tsx line 218): both title and prompt must trim nonempty;
appends the trimmed pair and clears both drafts. -/
def addStarter (s : GenState) : GenState :=
  if jsTrim s.starterTitle = "" ∨ jsTrim s.starterPrompt = "" then s
  else { s with
    starters := s.starters ++
      [{ title := jsTrim s.starterTitle, prompt := jsTrim s.starterPrompt }],
    starterTitle := "", starterPrompt := "" }

/-- `removeStarter` (tsx line 219). -/
def removeStarter (s : GenState) (i : ℕ) : GenState :=
  { s with starters := filterIdx (fun _ idx => idx ≠ i) s.starters }

/-- `addSample` (tsx line 220). -/
def addSample (s : GenState) : GenState :=
  if jsTrim s.sampleDraft = "" then s
  else { s with sampleQs := s.sampleQs ++ [jsTrim s.sampleDraft],
                sampleDraft := "" }

/-- `removeSample` (tsx line 221). -/
def removeSample (s : GenState) (i : ℕ) : GenState :=
  { s with sampleQs := filterIdx (fun _ idx => idx ≠ i) s.sampleQs }

/-- `addTag` (tsx line 222). -/
def addTag (s : GenState) : GenState :=
  if jsTrim s.tagDraft = "" then s
  else { s with tags := s.tags ++ [jsTrim s.tagDraft], tagDraft := "" }

/-- `removeTag` (tsx line 223). -/
def removeTag (s : GenState) (i : ℕ) : GenState :=
  { s with tags := filterIdx (fun _ idx => idx ≠ i) s.tags }

/-- Model of `x || y` for JS strings: the empty string is the only falsy
string. -/
def jsOrStr (a b : String) : String := if a = "" then b else a

/-- The filename offered by `downloadJSON` (tsx line 225):
the template literal is `(name || "custom-gpt") + ".json"`. -/
def downloadName (s : GenState) : String :=
  jsOrStr s.name "custom-gpt" ++ ".json"

/-- The five tool names in the canonical derivation order of §3 of the spec. -/
def canonicalTools : List String := ["web", "code", "retrieval", "image", "vision"]

/-- The flag state of a tool name: which boolean field controls it. -/
def toolOn (s : GenState) (t : String) : Bool :=
  if t = "web" then s.toolWeb
  else if t = "code" then s.toolCode
  else if t = "retrieval" then s.toolRetrieval
  else if t = "image" then s.toolImage
  else if t = "vision" then s.toolVision
  else false

/-- A JavaScript value tree of the shapes JSON deals with.  Numbers are
`JsNum` so that the in-memory document (which can hold `Infinity`) and the
result of `JSON.parse` (always finite) live in one type. -/
inductive JsVal where
  | null
  | bool (b : Bool)
  | num (x : JsNum)
  | str (s : String)
  | arr (xs : List JsVal)
  | obj (kvs : List (String × JsVal))

/-- Lower-case hexadecimal digit character of a value below 16. -/
def hexDigChar (n : ℕ) : Char :=
  if n < 10 then Char.ofNat (48 + n) else Char.ofNat (87 + n)

/-- JSON.stringify escaping of one character of a string: quote, backslash and
the named control characters get two-character escapes, other control
characters get `\u00XX`, everything else is emitted as itself. -/
def escapeChar (c : Char) : List Char :=
  if c = '"' then ['\\', '"']
  else if c = '\\' then ['\\', '\\']
  else if c = Char.ofNat 8 then ['\\', 'b']
  else if c = Char.ofNat 9 then ['\\', 't']
  else if c = Char.ofNat 10 then ['\\', 'n']
  else if c = Char.ofNat 12 then ['\\', 'f']
  else if c = Char.ofNat 13 then ['\\', 'r']
  else if c.toNat < 32 then
    ['\\', 'u', '0', '0', hexDigChar (c.toNat / 16), hexDigChar (c.toNat % 16)]
  else [c]

/-- JSON.stringify escaping of a character list. -/
def escapeChars : List Char → List Char
  | [] => []
  | c :: cs => escapeChar c ++ escapeChars cs

/-- Strip as many factors `p` as possible from `d` (with enough fuel):
returns the multiplicity and the remaining cofactor. -/
def stripFac (p : ℕ) : ℕ → ℕ → ℕ × ℕ
  | 0, d => (0, d)
  | fuel + 1, d =>
    if 1 < d ∧ p ∣ d then
      let r := stripFac p fuel (d / p)
      (r.1 + 1, r.2)
    else (0, d)

/-- The number of decimal fraction digits needed for an exact decimal
rational: the larger of the multiplicities of 2 and 5 in the denominator. -/
def decExpOf (q : ℚ) : ℕ :=
  max (stripFac 2 q.den q.den).1 (stripFac 5 q.den q.den).1

/-- Big-endian decimal digit characters of a natural number. -/
def natToChars (n : ℕ) : List Char :=
  if n = 0 then ['0']
  else ((Nat.digits 10 n).map (fun d => Char.ofNat (48 + d))).reverse

/-- Decimal text of a non-negative exact decimal rational, in JS number
format: integer part, and a fraction part exactly when one is needed. -/
def numToCharsNN (q : ℚ) : List Char :=
  let k := decExpOf q
  let N := q.num.toNat * (10 ^ k / q.den)
  if k = 0 then natToChars N
  else
    natToChars (N / 10 ^ k) ++
      '.' :: (List.replicate (k - (natToChars (N % 10 ^ k)).length) '0'
        ++ natToChars (N % 10 ^ k))

/-- Decimal text of a finite JS number (exact decimal rationals; other
denominators are out of the image of the modelled coercions). -/
def numToChars (q : ℚ) : List Char :=
  if q < 0 then '-' :: numToCharsNN (-q) else numToCharsNN q

/-- A newline followed by `ind` spaces: the separator JSON.stringify inserts
with an indentation argument of 2. -/
def nlIndent (ind : ℕ) : List Char := '\n' :: List.replicate ind ' '

mutual

/-- Model of `JSON.stringify(v, null, 2)` at indentation level `ind` (number
of spaces the enclosing level uses), emitted as a character list.  Non-finite
numbers serialize as `null`, exactly as in JavaScript. -/
def stringifyVal (ind : ℕ) : JsVal → List Char
  | JsVal.null => "null".data
  | JsVal.bool true => "true".data
  | JsVal.bool false => "false".data
  | JsVal.num (JsNum.fin q) => numToChars q
  | JsVal.num JsNum.nan => "null".data
  | JsVal.num JsNum.inf => "null".data
  | JsVal.num JsNum.ninf => "null".data
  | JsVal.str s => '"' :: (escapeChars s.data ++ ['"'])
  | JsVal.arr [] => ['[', ']']
  | JsVal.arr (x :: xs) =>
    '[' :: (nlIndent (ind + 2) ++ stringifyVal (ind + 2) x
      ++ arrTailChars (ind + 2) xs ++ nlIndent ind ++ [']'])
  | JsVal.obj [] => ['\x7b', '\x7d']
  | JsVal.obj (kv :: kvs) =>
    '\x7b' :: (nlIndent (ind + 2) ++ memberChars (ind + 2) kv
      ++ objTailChars (ind + 2) kvs ++ nlIndent ind ++ ['\x7d'])

/-- One `"key": value` member of an object. -/
def memberChars (ind : ℕ) (kv : String × JsVal) : List Char :=
  '"' :: (escapeChars kv.1.data ++ ['"', ':', ' ']) ++ stringifyVal ind kv.2

/-- The `, value` continuation of a non-empty array. -/
def arrTailChars (ind : ℕ) : List JsVal → List Char
  | [] => []
  | x :: xs => ',' :: nlIndent ind ++ stringifyVal ind x ++ arrTailChars ind xs

/-- The `, "key": value` continuation of a non-empty object. -/
def objTailChars (ind : ℕ) : List (String × JsVal) → List Char
  | [] => []
  | kv :: kvs =>
    ',' :: nlIndent ind ++ memberChars ind kv ++ objTailChars ind kvs

end

mutual

/-- What JSON round-tripping does to an in-memory value: non-finite numbers
become `null` (because `JSON.stringify` writes them as `null`), everything
else is preserved. -/
def normVal : JsVal → JsVal
  | JsVal.null => JsVal.null
  | JsVal.bool b => JsVal.bool b
  | JsVal.num (JsNum.fin q) => JsVal.num (JsNum.fin q)
  | JsVal.num JsNum.nan => JsVal.null
  | JsVal.num JsNum.inf => JsVal.null
  | JsVal.num JsNum.ninf => JsVal.null
  | JsVal.str s => JsVal.str s
  | JsVal.arr xs => JsVal.arr (normList xs)
  | JsVal.obj kvs => JsVal.obj (normMembers kvs)

/-- `normVal` on each element of an array. -/
def normList : List JsVal → List JsVal
  | [] => []
  | x :: xs => normVal x :: normList xs

/-- `normVal` on each member value of an object. -/
def normMembers : List (String × JsVal) → List (String × JsVal)
  | [] => []
  | (k, v) :: kvs => (k, normVal v) :: normMembers kvs

end

/-- JSON insignificant whitespace (space, tab, newline, carriage return). -/
def isJWs (c : Char) : Bool := [32, 9, 10, 13].contains c.toNat

/-- Skip insignificant whitespace. -/
def skipWs (cs : List Char) : List Char := cs.dropWhile isJWs

/-- Unescape a single-character JSON escape. -/
def unescChar (e : Char) : Option Char :=
  if e = '"' then some '"'
  else if e = '\\' then some '\\'
  else if e = '/' then some '/'
  else if e = 'b' then some (Char.ofNat 8)
  else if e = 'f' then some (Char.ofNat 12)
  else if e = 'n' then some (Char.ofNat 10)
  else if e = 'r' then some (Char.ofNat 13)
  else if e = 't' then some (Char.ofNat 9)
  else none

/-- Hex digit test. -/
def isHexDig (c : Char) : Bool := hexDigVal c < 16

/-- Parse a JSON string body (after the opening quote) up to and including
the closing quote; returns the unescaped content and the remaining input. -/
def parseStrBody : List Char → Option (List Char × List Char)
  | [] => none
  | c :: rest =>
    if c = '"' then some ([], rest)
    else if c = '\\' then
      match rest with
      | [] => none
      | e :: rest2 =>
        if e = 'u' then
          match rest2 with
          | a :: b :: c2 :: d :: rest3 =>
            if isHexDig a && isHexDig b && isHexDig c2 && isHexDig d then
              (parseStrBody rest3).map (fun p =>
                (Char.ofNat (hexDigVal a * 4096 + hexDigVal b * 256
                  + hexDigVal c2 * 16 + hexDigVal d) :: p.1, p.2))
            else none
          | _ => none
        else
          match unescChar e with
          | some u => (parseStrBody rest2).map (fun p => (u :: p.1, p.2))
          | none => none
    else (parseStrBody rest).map (fun p => (c :: p.1, p.2))
termination_by cs => cs.length
decreasing_by all_goals simp; try omega

/-- The optional leading minus sign of a JSON number. -/
def parseNumSign : List Char → Bool × List Char
  | '-' :: t => (true, t)
  | cs => (false, cs)

/-- The optional fraction part of a JSON number, given the integer part `I`:
on `.digits` the value is the digits of `I` followed by the fraction digits,
shifted right by the fraction length. -/
def parseFracPart (I : ℕ) : List Char → ℚ × List Char
  | '.' :: t =>
    (decQ (I * 10 ^ (t.takeWhile isDig).length + digitsVal (t.takeWhile isDig))
      (t.takeWhile isDig).length, t.dropWhile isDig)
  | r => ((I : ℚ), r)

/-- The optional exponent part of a JSON number, scaling the value `v`. -/
def parseExpPart (v : ℚ) : List Char → ℚ × List Char
  | e :: t =>
    if e = 'e' ∨ e = 'E' then
      let (eneg, t2) :=
        match t with
        | '+' :: u => (false, u)
        | '-' :: u => (true, u)
        | u => (false, u)
      let es := t2.takeWhile isDig
      if es.isEmpty then (v, e :: t)
      else ((if eneg then v / 10 ^ digitsVal es else v * 10 ^ digitsVal es),
        t2.dropWhile isDig)
    else (v, e :: t)
  | [] => (v, [])

/-- Parse a JSON number (optionally signed decimal with fraction and
exponent), leaving the remaining input.  Adequate for the output of
`stringifyVal`; a malformed exponent is left unconsumed rather than
rejected, a case `JSON.parse` would reject and `stringifyVal` never emits. -/
def parseNum (cs : List Char) : Option (ℚ × List Char) :=
  let p0 := parseNumSign cs
  let ds := p0.2.takeWhile isDig
  if ds.isEmpty then none
  else
    let p1 := parseFracPart (digitsVal ds) (p0.2.dropWhile isDig)
    let p2 := parseExpPart p1.1 p1.2
    some ((if p0.1 then -p2.1 else p2.1), p2.2)

mutual

/-- Model of the value grammar of `JSON.parse`, with a fuel bound on the
recursion depth (the top-level wrapper supplies more fuel than any input can
need).  Returns the parsed value and the remaining input. -/
def parseVal : ℕ → List Char → Option (JsVal × List Char)
  | 0, _ => none
  | fuel + 1, cs =>
    match skipWs cs with
    | 'n' :: 'u' :: 'l' :: 'l' :: r => some (JsVal.null, r)
    | 't' :: 'r' :: 'u' :: 'e' :: r => some (JsVal.bool true, r)
    | 'f' :: 'a' :: 'l' :: 's' :: 'e' :: r => some (JsVal.bool false, r)
    | '"' :: r => (parseStrBody r).map (fun p => (JsVal.str (String.mk p.1), p.2))
    | '[' :: r =>
      match skipWs r with
      | ']' :: r2 => some (JsVal.arr [], r2)
      | r2 => do
        let (x, r3) ← parseVal fuel r2
        let (xs, r4) ← parseArrTail fuel r3
        pure (JsVal.arr (x :: xs), r4)
    | '\x7b' :: r =>
      match skipWs r with
      | '\x7d' :: r2 => some (JsVal.obj [], r2)
      | r2 => do
        let (kv, r3) ← parseMember fuel r2
        let (kvs, r4) ← parseObjTail fuel r3
        pure (JsVal.obj (kv :: kvs), r4)
    | r => (parseNum r).map (fun p => (JsVal.num (JsNum.fin p.1), p.2))

/-- Parse one `"key": value` member of an object. -/
def parseMember : ℕ → List Char → Option ((String × JsVal) × List Char)
  | 0, _ => none
  | fuel + 1, cs =>
    match skipWs cs with
    | '"' :: r =>
      match parseStrBody r with
      | none => none
      | some (k, r2) =>
        match skipWs r2 with
        | ':' :: r3 =>
          (parseVal fuel r3).map (fun p => ((String.mk k, p.1), p.2))
        | _ => none
    | _ => none

/-- Parse the `, value ... ]` continuation of a non-empty array. -/
def parseArrTail : ℕ → List Char → Option (List JsVal × List Char)
  | 0, _ => none
  | fuel + 1, cs =>
    match skipWs cs with
    | ']' :: r => some ([], r)
    | ',' :: r => do
      let (x, r2) ← parseVal fuel r
      let (xs, r3) ← parseArrTail fuel r2
      pure (x :: xs, r3)
    | _ => none

/-- Parse the `, "key": value ... \x7d` continuation of a non-empty object. -/
def parseObjTail : ℕ → List Char → Option (List (String × JsVal) × List Char)
  | 0, _ => none
  | fuel + 1, cs =>
    match skipWs cs with
    | '\x7d' :: r => some ([], r)
    | ',' :: r => do
      let (kv, r2) ← parseMember fuel r
      let (kvs, r3) ← parseObjTail fuel r2
      pure (kv :: kvs, r3)
    | _ => none

end

/-- Model of `JSON.stringify(v, null, 2)` as a string. -/
def jsonStringify2 (v : JsVal) : String := String.mk (stringifyVal 0 v)

/-- Model of `JSON.parse`: parse one value, allow trailing whitespace, refuse
trailing content.  The fuel bound exceeds the recursion depth any input of
this length can force. -/
def jsonParse (s : String) : Option JsVal :=
  match parseVal (s.data.length + 1) s.data with
  | some (v, rest) => if (skipWs rest).isEmpty then some v else none
  | none => none

/-- The JS value of an auth descriptor, with keys in the insertion order the
editor produces (`type` first, `instructions` only once set). -/
def authVal (a : AuthSpec) : JsVal :=
  JsVal.obj ([("type", JsVal.str a.type)] ++
    (match a.instructions with
     | none => []
     | some i => [("instructions", JsVal.str i)]))

/-- The JS value of a custom action, with the keys the draft literal carries
(tsx line 157), `auth` last when present (tsx lines 301, 305). -/
def actionVal (a : CustomAction) : JsVal :=
  JsVal.obj ([("name", JsVal.str a.name), ("type", JsVal.str a.type),
    ("specUrlOrInline", JsVal.str a.specUrlOrInline)] ++
    (match a.auth with
     | none => []
     | some au => [("auth", authVal au)]))

/-- The JS value of a conversation starter (tsx line 218 literal order). -/
def starterVal (st : ConversationStarter) : JsVal :=
  JsVal.obj [("title", JsVal.str st.title), ("prompt", JsVal.str st.prompt)]

/-- The derived output document as the JS object tree the `output` memo
builds, with keys in the literal order of tsx lines 195-208. -/
def docVal (d : CustomGPTConfig) : JsVal :=
  JsVal.obj
    [("schemaVersion", JsVal.str d.schemaVersion),
     ("name", JsVal.str d.name),
     ("description", JsVal.str d.description),
     ("instructions", JsVal.str d.instructions),
     ("language", JsVal.str d.language),
     ("persona", JsVal.obj
        [("writingTone", JsVal.str d.persona.writingTone),
         ("emojiUse", JsVal.str d.persona.emojiUse),
         ("responseLength", JsVal.str d.persona.responseLength)]),
     ("builtInTools", JsVal.arr (d.builtInTools.map JsVal.str)),
     ("customActions", JsVal.arr (d.customActions.map actionVal)),
     ("knowledge", JsVal.obj
        [("enabled", JsVal.bool d.knowledge.enabled),
         ("documents", JsVal.arr (d.knowledge.documents.map JsVal.str))]),
     ("memory", JsVal.obj
        [("enabled", JsVal.bool d.memory.enabled),
         ("scope", JsVal.str d.memory.scope),
         ("dataRetentionDays", JsVal.num d.memory.dataRetentionDays)]),
     ("safety", JsVal.obj
        [("jailbreakDefense", JsVal.bool d.safety.jailbreakDefense),
         ("blockDisallowedContent", JsVal.bool d.safety.blockDisallowedContent),
         ("piiRedaction", JsVal.bool d.safety.piiRedaction),
         ("customDisallowedPhrases",
          JsVal.arr (d.safety.customDisallowedPhrases.map JsVal.str))]),
     ("conversationStarters",
      JsVal.arr (d.conversationStarters.map starterVal)),
     ("sampleQuestions", JsVal.arr (d.sampleQuestions.map JsVal.str)),
     ("tags", JsVal.arr (d.tags.map JsVal.str)),
     ("createdAt", JsVal.str d.createdAt)]

/-- `copyJSON` (tsx line 224): the text placed on the clipboard,
`JSON.stringify(output, null, 2)`. -/
def copyJSON (s : GenState) (now : String) : String :=
  jsonStringify2 (docVal (output s now))

/-- `downloadJSON` (tsx line 225): the observable effect is a file offer with
this name and this content (same serialization as `copyJSON`). -/
def downloadJSON (s : GenState) (now : String) : String × String :=
  (downloadName s, copyJSON s now)

/-- A rational is an exact decimal: its denominator divides a power of ten.
Every finite value `jsNumber` can produce has this form. -/
def IsDecQ (q : ℚ) : Prop := ∃ m : ℕ, q.den ∣ 10 ^ m

/-- Values whose numbers survive a stringify/parse round trip as
`normVal` describes: finite numbers are non-negative exact decimals (the only
finite numbers the derivation can put in a document); non-finite numbers are
allowed (they normalize to null). -/
inductive GoodNums : JsVal → Prop
  | gnull : GoodNums JsVal.null
  | gbool (b : Bool) : GoodNums (JsVal.bool b)
  | gfin (q : ℚ) : 0 ≤ q → IsDecQ q → GoodNums (JsVal.num (JsNum.fin q))
  | gnan : GoodNums (JsVal.num JsNum.nan)
  | ginf : GoodNums (JsVal.num JsNum.inf)
  | gninf : GoodNums (JsVal.num JsNum.ninf)
  | gstr (s : String) : GoodNums (JsVal.str s)
  | garr (xs : List JsVal) : (∀ x ∈ xs, GoodNums x) → GoodNums (JsVal.arr xs)
  | gobj (kvs : List (String × JsVal)) :
      (∀ kv ∈ kvs, GoodNums kv.2) → GoodNums (JsVal.obj kvs)

/-- The input may continue after a serialized number only with a character
that cannot extend the number token. -/
def stopOk : List Char → Prop
  | [] => True
  | c :: _ => (isDig c || decide (c = '.') || decide (c = 'e')
      || decide (c = 'E')) = false

/-- What the retention coercion may produce: a non-negative finite value or
positive infinity (never NaN, never negative). -/
def coercedOk : JsNum → Prop
  | JsNum.fin q => 0 ≤ q
  | JsNum.inf => True
  | JsNum.nan => False
  | JsNum.ninf => False

/-- Associative lookup in an object value, for reading components back out of
parsed documents. -/
def objGet (k : String) : JsVal → Option JsVal
  | JsVal.obj kvs => (kvs.find? (fun kv => kv.1 = k)).map (fun kv => kv.2)
  | _ => none

/-- The initial editor state, as seeded from `defaultConfig`
(tsx lines 41-57 and 134-181; `retention` is `String(180)`). -/
def initialState : GenState :=
  { name := "Untitled Custom GPT"
    description := ""
    instructions := "You are a helpful assistant."
    language := "en"
    tone := "friendly"
    emoji := "light"
    lengthPref := "medium"
    toolWeb := true
    toolCode := false
    toolRetrieval := false
    toolImage := false
    toolVision := false
    actions := []
    actionDraft := emptyActionDraft
    knowledgeEnabled := false
    knowledgeDocs := []
    docDraft := ""
    memoryEnabled := false
    memoryScope := "user"
    retention := "180"
    jailbreakDefense := true
    blockDisallowed := true
    piiRedaction := false
    customPhrases := []
    phraseDraft := ""
    starters := [{ title := "What can you do?",
                   prompt := "Give me a quick overview of your abilities." }]
    starterTitle := ""
    starterPrompt := ""
    sampleQs := ["How do I get started?"]
    sampleDraft := ""
    tags := ["starter"]
    tagDraft := "" }

/-- A document with its derivation timestamp blanked, for comparing two
derivations up to `createdAt`. -/
def eraseCreatedAt (d : CustomGPTConfig) : CustomGPTConfig :=
  { d with createdAt := "" }

/-! Helper lemmas about trimming and index-based filtering. -/

theorem dropWhile_idem {α : Type} (p : α → Bool) (l : List α) :
    (l.dropWhile p).dropWhile p = l.dropWhile p := by
  induction l with
  | nil => rfl
  | cons a t ih =>
    by_cases h : p a
    · simp [List.dropWhile, h, ih]
    · simp [List.dropWhile, h]

theorem dropWhile_head_false {α : Type} (p : α → Bool) (l : List α) :
    ∀ c, (l.dropWhile p).head? = some c → p c = false := by
  induction l with
  | nil => intro c h; simp at h
  | cons a t ih =>
    intro c h
    by_cases ha : p a
    · exact ih c (by simpa [List.dropWhile, ha] using h)
    · simp [List.dropWhile, ha] at h
      simp [← h, ha]

theorem dropWhile_eq_self_of_head {α : Type} (p : α → Bool) (l : List α)
    (h : ∀ c, l.head? = some c → p c = false) : l.dropWhile p = l := by
  cases l with
  | nil => rfl
  | cons a t => simp [List.dropWhile, h a rfl]

theorem jsTrimRightChars_prefix (l : List Char) :
    ∃ t, jsTrimRightChars l ++ t = l := by
  unfold jsTrimRightChars
  obtain ⟨t, ht⟩ := (List.dropWhile_suffix (l := l.reverse) jsWsChar)
  refine ⟨t.reverse, ?_⟩
  have := congrArg List.reverse ht
  simpa [List.reverse_append] using this

theorem jsTrimRightChars_idem (l : List Char) :
    jsTrimRightChars (jsTrimRightChars l) = jsTrimRightChars l := by
  unfold jsTrimRightChars
  simp [dropWhile_idem]

theorem jsTrimLeft_of_trimmed (l : List Char)
    (h : jsTrimLeftChars l = l) :
    jsTrimLeftChars (jsTrimRightChars l) = jsTrimRightChars l := by
  apply dropWhile_eq_self_of_head
  intro c hc
  obtain ⟨t, ht⟩ := jsTrimRightChars_prefix l
  cases hr : jsTrimRightChars l with
  | nil => rw [hr] at hc; simp at hc
  | cons b bs =>
    rw [hr] at hc
    have hbc : b = c := by simpa using hc
    rw [hr] at ht
    have hl : l.head? = some b := by rw [← ht]; rfl
    rw [← hbc]
    have h2 : List.dropWhile jsWsChar l = l := h
    exact dropWhile_head_false jsWsChar l b (by rw [h2]; exact hl)

theorem jsTrimChars_idem (l : List Char) :
    jsTrimChars (jsTrimChars l) = jsTrimChars l := by
  unfold jsTrimChars
  rw [jsTrimLeft_of_trimmed (jsTrimLeftChars l) (dropWhile_idem _ _),
    jsTrimRightChars_idem]

theorem jsTrim_idem (s : String) : jsTrim (jsTrim s) = jsTrim s := by
  unfold jsTrim
  simp [jsTrimChars_idem]

theorem enumFrom_remove {α : Type} (l : List α) : ∀ (n i : ℕ),
    ((l.enumFrom n).filter (fun p => decide (p.1 ≠ i))).map (fun p => p.2) =
      if i < n then l else l.take (i - n) ++ l.drop (i - n + 1) := by
  induction l with
  | nil => intro n i; simp
  | cons a t ih =>
    intro n i
    by_cases h : n = i
    · subst h
      have h1 := ih (n + 1) n
      simp only [Nat.lt_succ_self, if_true] at h1
      simp only [List.enumFrom, List.filter]
      simp only [decide_not] at h1 ⊢
      simp [h1]
    · have hne : (decide (n ≠ i)) = true := by simp [h]
      simp only [List.enumFrom, List.filter, hne, List.map]
      rw [ih (n + 1) i]
      by_cases hlt : i < n
      · simp [hlt, Nat.lt_succ_of_lt hlt]
      · have hgt : n < i := by omega
        have h1 : ¬ i < n + 1 := by omega
        have h2 : i - n = (i - (n + 1)) + 1 := by omega
        simp only [hlt, h1, if_neg, if_false]
        rw [h2, List.take_succ_cons, List.drop_succ_cons]
        simp

theorem filterIdx_ne_lt {α : Type} (l : List α) (i : ℕ) (_h : i < l.length) :
    filterIdx (fun _ idx => idx ≠ i) l = l.take i ++ l.drop (i + 1) := by
  unfold filterIdx
  have := enumFrom_remove l 0 i
  simpa [List.enum] using this

theorem filterIdx_ne_ge {α : Type} (l : List α) (i : ℕ) (h : l.length ≤ i) :
    filterIdx (fun _ idx => idx ≠ i) l = l := by
  unfold filterIdx
  have := enumFrom_remove l 0 i
  simp only [Nat.not_lt_zero, if_false, Nat.sub_zero] at this
  rw [List.enum]
  rw [this]
  rw [List.take_of_length_le h, List.drop_eq_nil_of_le (by omega)]
  simp

/-! Claim theorems. -/

theorem builtInList_eq_filter (s : GenState) :
    builtInList s.toolWeb s.toolCode s.toolRetrieval s.toolImage s.toolVision =
      canonicalTools.filter (toolOn s) := by
  have h : ∀ w c r i v : Bool,
      builtInList w c r i v =
        canonicalTools.filter (fun t =>
          if t = "web" then w
          else if t = "code" then c
          else if t = "retrieval" then r
          else if t = "image" then i
          else if t = "vision" then v
          else false) := by
    intro w c r i v
    cases w <;> cases c <;> cases r <;> cases i <;> cases v <;> rfl
  rw [h s.toolWeb s.toolCode s.toolRetrieval s.toolImage s.toolVision]
  rfl

/-- C1: for every assignment of the five tool flags, the derived document's
`builtInTools` is the canonical list (web, code, retrieval, image, vision)
filtered by the enabled flags — it contains exactly the enabled tools, in the
fixed canonical order.  The state records only the current flag values, so
the result is independent of the order in which the flags were toggled. -/
theorem builtInTools_canonical (s : GenState) (now : String) :
    (output s now).builtInTools = canonicalTools.filter (toolOn s) ∧
    ∀ t, t ∈ (output s now).builtInTools ↔
      t ∈ canonicalTools ∧ toolOn s t = true := by
  have h : (output s now).builtInTools = canonicalTools.filter (toolOn s) :=
    builtInList_eq_filter s
  refine ⟨h, fun t => ?_⟩
  rw [h, List.mem_filter]

/-- C2 counterexample: two derivations from the same field state at different
instants give different documents, because `createdAt` is recomputed from the
clock at every derivation. -/
theorem output_not_deterministic_cex :
    output initialState "2024-01-01T00:00:00.000Z" ≠
      output initialState "2024-01-02T00:00:00.000Z" := by
  intro h
  have h2 := congrArg CustomGPTConfig.createdAt h
  simp only [output] at h2
  exact absurd h2 (by decide)

/-- C2 (amended): the derivation is deterministic in the tracked fields up to
`createdAt`: two derivations from identical field values agree on every
component except the `createdAt` timestamp, which is the derivation instant. -/
theorem output_deterministic_mod_createdAt (s : GenState) (t1 t2 : String) :
    eraseCreatedAt (output s t1) = eraseCreatedAt (output s t2) := rfl

/-- C3 counterexample: a custom-action draft whose name is ` Lookup ` passes
validation, and `addAction` appends the draft as written — the stored action
name keeps its surrounding whitespace, so the add does not store the trimmed
draft. -/
theorem addAction_untrimmed_cex :
    ((addAction { initialState with
        actionDraft := { name := " Lookup ", type := "openapi",
                         specUrlOrInline := "", auth := none } }).actions.map
      CustomAction.name) = [" Lookup "] ∧ jsTrim " Lookup " ≠ " Lookup " := by
  constructor
  · decide
  · decide

/-- C3 (amended): for the four string-list fields and for starters, a draft
that passes validation is appended trimmed (so the stored element carries no
leading or trailing whitespace, `jsTrim` fixes it) and the draft input is
reset; for custom actions the draft record is appended exactly as written
(only the validation reads the trimmed name) and the draft is reset. -/
theorem add_appends_trimmed (s : GenState) :
    (jsTrim s.docDraft ≠ "" →
      (addDoc s).knowledgeDocs = s.knowledgeDocs ++ [jsTrim s.docDraft] ∧
      (addDoc s).docDraft = "" ∧
      jsTrim (jsTrim s.docDraft) = jsTrim s.docDraft) ∧
    (jsTrim s.phraseDraft ≠ "" →
      (addPhrase s).customPhrases = s.customPhrases ++ [jsTrim s.phraseDraft] ∧
      (addPhrase s).phraseDraft = "" ∧
      jsTrim (jsTrim s.phraseDraft) = jsTrim s.phraseDraft) ∧
    (jsTrim s.sampleDraft ≠ "" →
      (addSample s).sampleQs = s.sampleQs ++ [jsTrim s.sampleDraft] ∧
      (addSample s).sampleDraft = "" ∧
      jsTrim (jsTrim s.sampleDraft) = jsTrim s.sampleDraft) ∧
    (jsTrim s.tagDraft ≠ "" →
      (addTag s).tags = s.tags ++ [jsTrim s.tagDraft] ∧
      (addTag s).tagDraft = "" ∧
      jsTrim (jsTrim s.tagDraft) = jsTrim s.tagDraft) ∧
    (jsTrim s.starterTitle ≠ "" → jsTrim s.starterPrompt ≠ "" →
      (addStarter s).starters = s.starters ++
        [{ title := jsTrim s.starterTitle, prompt := jsTrim s.starterPrompt }] ∧
      (addStarter s).starterTitle = "" ∧ (addStarter s).starterPrompt = "" ∧
      jsTrim (jsTrim s.starterTitle) = jsTrim s.starterTitle ∧
      jsTrim (jsTrim s.starterPrompt) = jsTrim s.starterPrompt) ∧
    (jsTrim s.actionDraft.name ≠ "" →
      (addAction s).actions = s.actions ++ [s.actionDraft] ∧
      (addAction s).actionDraft = emptyActionDraft) := by
  refine ⟨fun h => ?_, fun h => ?_, fun h => ?_, fun h => ?_,
    fun h1 h2 => ?_, fun h => ?_⟩
  · rw [addDoc, if_neg h]; exact ⟨rfl, rfl, jsTrim_idem _⟩
  · rw [addPhrase, if_neg h]; exact ⟨rfl, rfl, jsTrim_idem _⟩
  · rw [addSample, if_neg h]; exact ⟨rfl, rfl, jsTrim_idem _⟩
  · rw [addTag, if_neg h]; exact ⟨rfl, rfl, jsTrim_idem _⟩
  · rw [addStarter, if_neg (by push_neg; exact ⟨h1, h2⟩)]
    exact ⟨rfl, rfl, rfl, jsTrim_idem _, jsTrim_idem _⟩
  · rw [addAction, if_neg h]; exact ⟨rfl, rfl⟩

/-- C3 witness: at a concrete state with draft `"  hello  "`, the validated
add stores the trimmed value `"hello"` and clears the draft. -/
theorem add_appends_trimmed_witness :
    jsTrim (GenState.docDraft { initialState with docDraft := "  hello  " }) ≠ "" ∧
    (addDoc { initialState with docDraft := "  hello  " }).knowledgeDocs =
      GenState.knowledgeDocs { initialState with docDraft := "  hello  " } ++
        [jsTrim (GenState.docDraft { initialState with docDraft := "  hello  " })] ∧
    (addDoc { initialState with docDraft := "  hello  " }).docDraft = "" :=
  ⟨by decide,
   ((add_appends_trimmed { initialState with docDraft := "  hello  " }).1
      (by decide)).1,
   ((add_appends_trimmed { initialState with docDraft := "  hello  " }).1
      (by decide)).2.1⟩

/-- C4 counterexample: the retention text `"2.5"` is coerced to the rational
5/2, whose denominator is not 1 — the derived `dataRetentionDays` is not an
integer (its denominator is 2), so the coercion does not always produce an
integer. -/
theorem retention_noninteger_cex :
    retentionDays "2.5" = JsNum.fin (mkRat 5 2) ∧ mkRat 5 2 = (5 : ℚ) / 2 ∧
    (mkRat 5 2).den ≠ 1 := by
  refine ⟨by decide, ?_, by decide⟩
  rw [Rat.mkRat_eq_div]
  norm_num

/-- C4 (amended): the coercion parses the text as a JS number, substitutes 0
for NaN and clamps negatives (including negative infinity) to 0; the result
is a non-negative numeric value but not necessarily an integer (fractional
parses are kept, and a parse overflowing the double range gives Infinity).
On the spec examples: `"abc"` gives 0, `"-5"` gives 0, `"30"` gives 30. -/
theorem retention_coercion :
    (∀ s, coercedOk (retentionDays s)) ∧
    retentionDays "abc" = JsNum.fin 0 ∧
    retentionDays "-5" = JsNum.fin 0 ∧
    retentionDays "30" = JsNum.fin 30 := by
  refine ⟨fun s => ?_, by decide, by decide, by decide⟩
  unfold retentionDays
  cases jsNumber s with
  | nan => simp [jsOrZero, jsMax0, coercedOk]
  | inf => simp [jsOrZero, jsMax0, coercedOk]
  | ninf => simp [jsOrZero, jsMax0, coercedOk]
  | fin q =>
    by_cases h : q = 0
    · simp [jsOrZero, h, jsMax0, coercedOk]
    · simp [jsOrZero, h, jsMax0, coercedOk, le_max_left]

/-- C5: for every list field, `removeAt(i)` with a valid index removes
exactly the element at position `i` (the result is the prefix before `i`
followed by the suffix after `i`, so the remaining elements keep their order
and the length drops by exactly one), and with `i` out of range it leaves
the whole state unchanged (the index filter matches nothing); all operations
are total, so nothing can throw. -/
theorem removeAt_spec (s : GenState) (i : ℕ) :
    (i < s.actions.length →
      (removeAction s i).actions = s.actions.take i ++ s.actions.drop (i + 1) ∧
      (removeAction s i).actions.length + 1 = s.actions.length) ∧
    (s.actions.length ≤ i → removeAction s i = s) ∧
    (i < s.knowledgeDocs.length →
      (removeDoc s i).knowledgeDocs =
        s.knowledgeDocs.take i ++ s.knowledgeDocs.drop (i + 1) ∧
      (removeDoc s i).knowledgeDocs.length + 1 = s.knowledgeDocs.length) ∧
    (s.knowledgeDocs.length ≤ i → removeDoc s i = s) ∧
    (i < s.customPhrases.length →
      (removePhrase s i).customPhrases =
        s.customPhrases.take i ++ s.customPhrases.drop (i + 1) ∧
      (removePhrase s i).customPhrases.length + 1 = s.customPhrases.length) ∧
    (s.customPhrases.length ≤ i → removePhrase s i = s) ∧
    (i < s.starters.length →
      (removeStarter s i).starters =
        s.starters.take i ++ s.starters.drop (i + 1) ∧
      (removeStarter s i).starters.length + 1 = s.starters.length) ∧
    (s.starters.length ≤ i → removeStarter s i = s) ∧
    (i < s.sampleQs.length →
      (removeSample s i).sampleQs =
        s.sampleQs.take i ++ s.sampleQs.drop (i + 1) ∧
      (removeSample s i).sampleQs.length + 1 = s.sampleQs.length) ∧
    (s.sampleQs.length ≤ i → removeSample s i = s) ∧
    (i < s.tags.length →
      (removeTag s i).tags = s.tags.take i ++ s.tags.drop (i + 1) ∧
      (removeTag s i).tags.length + 1 = s.tags.length) ∧
    (s.tags.length ≤ i → removeTag s i = s) := by
  have len : ∀ (α : Type) (l : List α), i < l.length →
      (l.take i ++ l.drop (i + 1)).length + 1 = l.length := by
    intro α l h
    simp [List.length_take, List.length_drop]
    omega
  refine ⟨fun h => ?_, fun h => ?_, fun h => ?_, fun h => ?_, fun h => ?_,
    fun h => ?_, fun h => ?_, fun h => ?_, fun h => ?_, fun h => ?_,
    fun h => ?_, fun h => ?_⟩
  · rw [removeAction, filterIdx_ne_lt _ _ h]
    exact ⟨rfl, len _ _ h⟩
  · rw [removeAction, filterIdx_ne_ge _ _ h]
  · rw [removeDoc, filterIdx_ne_lt _ _ h]
    exact ⟨rfl, len _ _ h⟩
  · rw [removeDoc, filterIdx_ne_ge _ _ h]
  · rw [removePhrase, filterIdx_ne_lt _ _ h]
    exact ⟨rfl, len _ _ h⟩
  · rw [removePhrase, filterIdx_ne_ge _ _ h]
  · rw [removeStarter, filterIdx_ne_lt _ _ h]
    exact ⟨rfl, len _ _ h⟩
  · rw [removeStarter, filterIdx_ne_ge _ _ h]
  · rw [removeSample, filterIdx_ne_lt _ _ h]
    exact ⟨rfl, len _ _ h⟩
  · rw [removeSample, filterIdx_ne_ge _ _ h]
  · rw [removeTag, filterIdx_ne_lt _ _ h]
    exact ⟨rfl, len _ _ h⟩
  · rw [removeTag, filterIdx_ne_ge _ _ h]

/-- C5 witness: removing index 0 from the one-element initial tag list leaves
the empty prefix and suffix, and removing at the out-of-range index 3 of the
empty action list is a no-op. -/
theorem removeAt_spec_witness :
    0 < initialState.tags.length ∧
    (removeTag initialState 0).tags =
      initialState.tags.take 0 ++ initialState.tags.drop 1 ∧
    initialState.actions.length ≤ 3 ∧
    removeAction initialState 3 = initialState :=
  ⟨by decide,
   ((removeAt_spec initialState 0).2.2.2.2.2.2.2.2.2.2.1 (by decide)).1,
   by decide,
   (removeAt_spec initialState 3).2.1 (by decide)⟩

/-- C6: for every list field, an add whose draft fails validation (a
single-string draft trimming to empty; a starter with either part trimming
to empty; an action whose name trims to empty) returns the state unchanged —
no list, no draft, no other field moves, and no error is possible. -/
theorem add_invalid_noop (s : GenState) :
    (jsTrim s.docDraft = "" → addDoc s = s) ∧
    (jsTrim s.phraseDraft = "" → addPhrase s = s) ∧
    (jsTrim s.sampleDraft = "" → addSample s = s) ∧
    (jsTrim s.tagDraft = "" → addTag s = s) ∧
    (jsTrim s.starterTitle = "" ∨ jsTrim s.starterPrompt = "" →
      addStarter s = s) ∧
    (jsTrim s.actionDraft.name = "" → addAction s = s) := by
  refine ⟨fun h => ?_, fun h => ?_, fun h => ?_, fun h => ?_,
    fun h => ?_, fun h => ?_⟩
  · rw [addDoc, if_pos h]
  · rw [addPhrase, if_pos h]
  · rw [addSample, if_pos h]
  · rw [addTag, if_pos h]
  · rw [addStarter, if_pos h]
  · rw [addAction, if_pos h]

/-- C6 witness: a whitespace-only document draft and a whitespace-only action
name both leave the concrete state untouched. -/
theorem add_invalid_noop_witness :
    jsTrim (GenState.docDraft { initialState with docDraft := "   " }) = "" ∧
    addDoc { initialState with docDraft := "   " } =
      { initialState with docDraft := "   " } ∧
    jsTrim (CustomAction.name (GenState.actionDraft { initialState with
      actionDraft := { emptyActionDraft with name := " " } })) = "" ∧
    addAction { initialState with
        actionDraft := { emptyActionDraft with name := " " } } =
      { initialState with
        actionDraft := { emptyActionDraft with name := " " } } :=
  ⟨by decide,
   (add_invalid_noop { initialState with docDraft := "   " }).1 (by decide),
   by decide,
   (add_invalid_noop { initialState with
      actionDraft := { emptyActionDraft with name := " " } }).2.2.2.2.2
     (by decide)⟩

/-- C8: the download filename is the current name followed by `.json`, with
the default base `custom-gpt` exactly when the name is the empty string (the
only falsy JS string). -/
theorem download_filename_spec :
    (∀ s : GenState, s.name ≠ "" → downloadName s = s.name ++ ".json") ∧
    (∀ s : GenState, s.name = "" → downloadName s = "custom-gpt.json") := by
  constructor
  · intro s h
    rw [downloadName, jsOrStr, if_neg h]
  · intro s h
    rw [downloadName, jsOrStr, if_pos h]
    rfl

/-- C8 witness: the initial state's nonempty name is used as the base, and an
emptied name falls back to `custom-gpt.json`. -/
theorem download_filename_spec_witness :
    initialState.name ≠ "" ∧
    downloadName initialState = initialState.name ++ ".json" ∧
    GenState.name { initialState with name := "" } = "" ∧
    downloadName { initialState with name := "" } = "custom-gpt.json" :=
  ⟨by decide,
   download_filename_spec.1 initialState (by decide),
   by decide,
   download_filename_spec.2 { initialState with name := "" } (by decide)⟩

/-- C9: disabling a section does not erase its data from the export — even
with `knowledgeEnabled` or `memoryEnabled` false, the derived document still
carries the current document list, memory scope and coerced retention days,
and records the disabled flag itself. -/
theorem disabled_sections_preserved (s : GenState) (now : String) :
    (s.knowledgeEnabled = false →
      (output s now).knowledge.enabled = false ∧
      (output s now).knowledge.documents = s.knowledgeDocs) ∧
    (s.memoryEnabled = false →
      (output s now).memory.enabled = false ∧
      (output s now).memory.scope = s.memoryScope ∧
      (output s now).memory.dataRetentionDays = retentionDays s.retention) := by
  refine ⟨fun h => ⟨?_, rfl⟩, fun h => ⟨?_, rfl, rfl⟩⟩
  · simpa [output] using h
  · simpa [output] using h

/-- C9 witness: with both sections disabled but a document added and a scope
and retention set, the export still carries them. -/
theorem disabled_sections_preserved_witness :
    GenState.knowledgeEnabled { initialState with knowledgeDocs := ["a.pdf"] }
      = false ∧
    (output { initialState with knowledgeDocs := ["a.pdf"] } "T").knowledge.documents
      = GenState.knowledgeDocs { initialState with knowledgeDocs := ["a.pdf"] } ∧
    GenState.memoryEnabled { initialState with knowledgeDocs := ["a.pdf"] }
      = false ∧
    (output { initialState with knowledgeDocs := ["a.pdf"] } "T").memory.scope
      = GenState.memoryScope { initialState with knowledgeDocs := ["a.pdf"] } :=
  ⟨by decide,
   ((disabled_sections_preserved { initialState with knowledgeDocs := ["a.pdf"] }
      "T").1 (by decide)).2,
   by decide,
   ((disabled_sections_preserved { initialState with knowledgeDocs := ["a.pdf"] }
      "T").2 (by decide)).2.1⟩

/-- C10: no list field enforces uniqueness — a validated add always grows the
list by exactly one, whether or not an equal element is already present. -/
theorem add_increments_length (s : GenState) :
    (jsTrim s.docDraft ≠ "" →
      (addDoc s).knowledgeDocs.length = s.knowledgeDocs.length + 1) ∧
    (jsTrim s.phraseDraft ≠ "" →
      (addPhrase s).customPhrases.length = s.customPhrases.length + 1) ∧
    (jsTrim s.sampleDraft ≠ "" →
      (addSample s).sampleQs.length = s.sampleQs.length + 1) ∧
    (jsTrim s.tagDraft ≠ "" →
      (addTag s).tags.length = s.tags.length + 1) ∧
    (jsTrim s.starterTitle ≠ "" → jsTrim s.starterPrompt ≠ "" →
      (addStarter s).starters.length = s.starters.length + 1) ∧
    (jsTrim s.actionDraft.name ≠ "" →
      (addAction s).actions.length = s.actions.length + 1) := by
  refine ⟨fun h => ?_, fun h => ?_, fun h => ?_, fun h => ?_,
    fun h1 h2 => ?_, fun h => ?_⟩
  · rw [addDoc, if_neg h]; simp
  · rw [addPhrase, if_neg h]; simp
  · rw [addSample, if_neg h]; simp
  · rw [addTag, if_neg h]; simp
  · rw [addStarter, if_neg (by push_neg; exact ⟨h1, h2⟩)]; simp
  · rw [addAction, if_neg h]; simp

/-- C10 witness: adding the tag `starter` to the initial state, whose tag
list already contains `starter`, still appends — the list gains a duplicate
and its length grows by one. -/
theorem add_increments_length_witness :
    jsTrim (GenState.tagDraft { initialState with tagDraft := "starter" }) ≠ "" ∧
    (addTag { initialState with tagDraft := "starter" }).tags.length =
      (GenState.tags { initialState with tagDraft := "starter" }).length + 1 ∧
    (addTag { initialState with tagDraft := "starter" }).tags =
      ["starter", "starter"] :=
  ⟨by decide,
   (add_increments_length { initialState with tagDraft := "starter" }).2.2.2.1
     (by decide),
   by decide⟩

/-! Helper lemmas for the JSON round trip: characters and digit strings. -/

theorem char_toNat_ofNat (n : ℕ) (h : n < 55296) : (Char.ofNat n).toNat = n := by
  have hv : n.isValidChar := Or.inl (by omega)
  simp [Char.ofNat, hv, Char.ofNatAux, Char.toNat, UInt32.toNat,
    BitVec.toNat_ofNatLt]

theorem char_eq_of_toNat {c : Char} {n : ℕ}
    (h : c.toNat = n) : c = Char.ofNat n := by
  rw [← h, Char.ofNat_toNat]

theorem isDig_bounds {c : Char} (h : isDig c = true) :
    48 ≤ c.toNat ∧ c.toNat ≤ 57 := by
  simpa [isDig] using h

theorem isDig_ofNat {d : ℕ} (h : d < 10) :
    isDig (Char.ofNat (48 + d)) = true := by
  simp [isDig, char_toNat_ofNat (48 + d) (by omega)]
  omega

theorem takeWhile_all_append {α : Type} (p : α → Bool) (l rest : List α)
    (h : ∀ c ∈ l, p c = true) :
    List.takeWhile p (l ++ rest) = l ++ List.takeWhile p rest := by
  induction l with
  | nil => rfl
  | cons a t ih =>
    simp only [List.cons_append, List.takeWhile_cons, h a (by simp)]
    rw [ih (fun c hc => h c (by simp [hc]))]
    simp

theorem dropWhile_all_append {α : Type} (p : α → Bool) (l rest : List α)
    (h : ∀ c ∈ l, p c = true) :
    List.dropWhile p (l ++ rest) = List.dropWhile p rest := by
  induction l with
  | nil => rfl
  | cons a t ih =>
    simp only [List.cons_append, List.dropWhile_cons, h a (by simp)]
    exact ih (fun c hc => h c (by simp [hc]))

theorem takeWhile_nil_of_head {α : Type} (p : α → Bool) (rest : List α)
    (h : ∀ c, rest.head? = some c → p c = false) :
    List.takeWhile p rest = [] := by
  cases rest with
  | nil => rfl
  | cons a t => simp [List.takeWhile_cons, h a rfl]

theorem natToChars_ne_nil (n : ℕ) : natToChars n ≠ [] := by
  unfold natToChars
  by_cases h : n = 0
  · simp [h]
  · simp [h, Nat.digits_ne_nil_iff_ne_zero.mpr h]

theorem natToChars_digits (n : ℕ) :
    ∀ c ∈ natToChars n, isDig c = true := by
  unfold natToChars
  by_cases h : n = 0
  · simp [h]; decide
  · simp only [h, if_false, List.mem_reverse, List.mem_map]
    rintro c ⟨d, hd, rfl⟩
    exact isDig_ofNat (Nat.digits_lt_base (by omega) hd)

theorem foldr_digit_chars (L : List ℕ) (h : ∀ d ∈ L, d < 10) :
    List.foldr (fun c a => 10 * a + (c.toNat - 48)) 0
      (L.map (fun d => Char.ofNat (48 + d))) = Nat.ofDigits 10 L := by
  induction L with
  | nil => rfl
  | cons d t ih =>
    simp only [List.map_cons, List.foldr_cons, Nat.ofDigits_cons]
    rw [ih (fun x hx => h x (by simp [hx]))]
    rw [char_toNat_ofNat (48 + d) (by have := h d (by simp); omega)]
    omega

theorem digitsVal_natToChars (n : ℕ) : digitsVal (natToChars n) = n := by
  unfold digitsVal natToChars
  by_cases h : n = 0
  · simp [h]
  · simp only [h, if_false]
    rw [List.foldl_reverse]
    rw [foldr_digit_chars _ (fun d hd => Nat.digits_lt_base (by omega) hd)]
    exact Nat.ofDigits_digits 10 n

theorem digitsVal_append_zeros (m : ℕ) (l : List Char) :
    digitsVal (List.replicate m (Char.ofNat 48) ++ l) = digitsVal l := by
  unfold digitsVal
  rw [List.foldl_append]
  have h : List.foldl (fun a c => 10 * a + (c.toNat - 48)) 0
      (List.replicate m (Char.ofNat 48)) = 0 := by
    induction m with
    | zero => rfl
    | succ i ih => simpa [List.replicate_succ] using ih
  rw [h]

theorem natToChars_len_le (k F : ℕ) (h : F < 10 ^ k) (hk : 1 ≤ k) :
    (natToChars F).length ≤ k := by
  unfold natToChars
  by_cases hF : F = 0
  · simpa [hF] using hk
  · simp only [hF, if_false, List.length_reverse, List.length_map]
    rw [Nat.digits_len 10 F (by omega) hF]
    have := Nat.log_lt_of_lt_pow hF h
    omega

theorem hexRound (n : ℕ) (h : n < 16) : hexDigVal (hexDigChar n) = n := by
  unfold hexDigChar hexDigVal
  by_cases h10 : n < 10
  · rw [if_pos h10, char_toNat_ofNat _ (by omega), if_pos (by omega)]
    omega
  · rw [if_neg h10, char_toNat_ofNat _ (by omega), if_neg (by omega),
      if_pos (by omega)]
    omega

theorem isHexDig_hexDigChar (n : ℕ) (h : n < 16) :
    isHexDig (hexDigChar n) = true := by
  simp [isHexDig, hexRound n h]
  omega

theorem parseStrBody_escape (cs : List Char) :
    ∀ rest, parseStrBody (escapeChars cs ++ ('"' :: rest)) = some (cs, rest) := by
  induction cs with
  | nil =>
    intro rest
    rw [parseStrBody.eq_def]
    simp [escapeChars]
  | cons c t ih =>
    intro rest
    show parseStrBody ((escapeChar c ++ escapeChars t) ++ ('"' :: rest)) = _
    rw [List.append_assoc]
    by_cases h1 : c = '"'
    · subst h1
      rw [show escapeChar '"' = ['\\', '"'] from by decide]
      rw [List.cons_append, List.cons_append, parseStrBody.eq_def]
      simp [unescChar, ih rest]
    · by_cases h2 : c = '\\'
      · subst h2
        rw [show escapeChar '\\' = ['\\', '\\'] from by decide]
        rw [List.cons_append, List.cons_append, parseStrBody.eq_def]
        simp [unescChar, ih rest]
      · by_cases h3 : c = Char.ofNat 8
        · subst h3
          rw [show escapeChar (Char.ofNat 8) = ['\\', 'b'] from by decide]
          rw [List.cons_append, List.cons_append, parseStrBody.eq_def]
          simp [unescChar, ih rest]
        · by_cases h4 : c = Char.ofNat 9
          · subst h4
            rw [show escapeChar (Char.ofNat 9) = ['\\', 't'] from by decide]
            rw [List.cons_append, List.cons_append, parseStrBody.eq_def]
            simp [unescChar, ih rest]
          · by_cases h5 : c = Char.ofNat 10
            · subst h5
              rw [show escapeChar (Char.ofNat 10) = ['\\', 'n'] from by decide]
              rw [List.cons_append, List.cons_append, parseStrBody.eq_def]
              simp [unescChar, ih rest]
            · by_cases h6 : c = Char.ofNat 12
              · subst h6
                rw [show escapeChar (Char.ofNat 12) = ['\\', 'f'] from by decide]
                rw [List.cons_append, List.cons_append, parseStrBody.eq_def]
                simp [unescChar, ih rest]
              · by_cases h7 : c = Char.ofNat 13
                · subst h7
                  rw [show escapeChar (Char.ofNat 13) = ['\\', 'r'] from by decide]
                  rw [List.cons_append, List.cons_append, parseStrBody.eq_def]
                  simp [unescChar, ih rest]
                · by_cases h8 : c.toNat < 32
                  · have he : escapeChar c =
                        ['\\', 'u', '0', '0', hexDigChar (c.toNat / 16),
                         hexDigChar (c.toNat % 16)] := by
                      unfold escapeChar
                      rw [if_neg h1, if_neg h2, if_neg h3, if_neg h4,
                        if_neg h5, if_neg h6, if_neg h7, if_pos h8]
                    rw [he]
                    simp only [List.cons_append, List.nil_append]
                    rw [parseStrBody.eq_def]
                    have hx1 : isHexDig (hexDigChar (c.toNat / 16)) = true :=
                      isHexDig_hexDigChar _ (by omega)
                    have hx2 : isHexDig (hexDigChar (c.toNat % 16)) = true :=
                      isHexDig_hexDigChar _ (by omega)
                    simp only [reduceIte, hx1, hx2, Bool.and_self,
                      Bool.and_true, Bool.true_and,
                      show isHexDig '0' = true from by decide]
                    rw [hexRound _ (by omega), hexRound _ (by omega)]
                    have hv : hexDigVal '0' = 0 := by decide
                    rw [hv]
                    have hc : 0 * 4096 + 0 * 256 + c.toNat / 16 * 16 +
                        c.toNat % 16 = c.toNat := by omega
                    rw [hc, Char.ofNat_toNat, ih rest]
                    rfl
                  · have he : escapeChar c = [c] := by
                      unfold escapeChar
                      rw [if_neg h1, if_neg h2, if_neg h3, if_neg h4,
                        if_neg h5, if_neg h6, if_neg h7, if_neg h8]
                    rw [he, List.cons_append, List.nil_append,
                      parseStrBody.eq_def]
                    simp [h1, h2, ih rest]

theorem stripFac_spec (p : ℕ) (hp : 2 ≤ p) :
    ∀ fuel d, 1 ≤ d → d ≤ fuel →
      p ^ (stripFac p fuel d).1 * (stripFac p fuel d).2 = d ∧
      ¬ p ∣ (stripFac p fuel d).2 := by
  intro fuel
  induction fuel with
  | zero => intro d h1 h2; exact absurd h2 (by omega)
  | succ n ih =>
    intro d h1 h2
    by_cases h : 1 < d ∧ p ∣ d
    · obtain ⟨hd, hdvd⟩ := h
      have hdp : 1 ≤ d / p :=
        (Nat.one_le_div_iff (by omega)).mpr (Nat.le_of_dvd (by omega) hdvd)
      have hlt : d / p < d := Nat.div_lt_self (by omega) (by omega)
      obtain ⟨heq, hnd⟩ := ih (d / p) hdp (by omega)
      have hs : stripFac p (n + 1) d =
          ((stripFac p n (d / p)).1 + 1, (stripFac p n (d / p)).2) := by
        rw [stripFac, if_pos ⟨hd, hdvd⟩]
      rw [hs]
      refine ⟨?_, hnd⟩
      have : p ^ ((stripFac p n (d / p)).1 + 1) * (stripFac p n (d / p)).2 =
          p * (p ^ (stripFac p n (d / p)).1 * (stripFac p n (d / p)).2) := by
        ring
      rw [this, heq]
      exact Nat.mul_div_cancel' hdvd
    · have hs : stripFac p (n + 1) d = (0, d) := by
        rw [stripFac, if_neg h]
      rw [hs]
      refine ⟨by simp, fun hdvd => ?_⟩
      rcases not_and_or.mp h with h' | h'
      · have hd1 : d = 1 := by omega
        subst hd1
        exact absurd (Nat.le_of_dvd one_pos hdvd) (by omega)
      · exact h' hdvd

theorem den_dvd_decExp (q : ℚ) (hdec : IsDecQ q) :
    q.den ∣ 10 ^ decExpOf q := by
  obtain ⟨m, hm⟩ := hdec
  have hd1 : 1 ≤ q.den := q.den_pos
  obtain ⟨h2eq, h2nd⟩ := stripFac_spec 2 (le_refl 2) q.den q.den hd1 (le_refl _)
  obtain ⟨h5eq, h5nd⟩ := stripFac_spec 5 (by omega) q.den q.den hd1 (le_refl _)
  have h10 : ∀ j : ℕ, (10:ℕ) ^ j = 2 ^ j * 5 ^ j := by
    intro j; rw [← Nat.mul_pow]
  have hr1d : (stripFac 2 q.den q.den).2 ∣ q.den := by
    conv_rhs => rw [← h2eq]
    exact dvd_mul_left _ _
  have hr1_10 : (stripFac 2 q.den q.den).2 ∣ 2 ^ m * 5 ^ m := by
    rw [← h10]; exact hr1d.trans hm
  have cop2 : Nat.Coprime (stripFac 2 q.den q.den).2 2 :=
    Nat.coprime_comm.mp ((Nat.Prime.coprime_iff_not_dvd Nat.prime_two).mpr h2nd)
  have hr1_5 : (stripFac 2 q.den q.den).2 ∣ 5 ^ m :=
    (cop2.pow_right m).dvd_of_dvd_mul_left hr1_10
  obtain ⟨c, hcm, hr1⟩ := (Nat.dvd_prime_pow Nat.prime_five).mp hr1_5
  have h5cd : (5:ℕ) ^ c ∣ q.den := by
    conv_rhs => rw [← h2eq]
    rw [hr1]
    exact dvd_mul_left _ _
  have hcle : c ≤ (stripFac 5 q.den q.den).1 := by
    have h5cd2 : (5:ℕ) ^ c ∣
        5 ^ (stripFac 5 q.den q.den).1 * (stripFac 5 q.den q.den).2 := by
      rw [h5eq]; exact h5cd
    have cop5 : Nat.Coprime (5 ^ c) (stripFac 5 q.den q.den).2 :=
      ((Nat.Prime.coprime_iff_not_dvd Nat.prime_five).mpr h5nd).pow_left c
    have : (5:ℕ) ^ c ∣ 5 ^ (stripFac 5 q.den q.den).1 :=
      (Nat.Coprime.dvd_of_dvd_mul_right cop5) h5cd2
    exact (Nat.pow_dvd_pow_iff_le_right (by omega)).mp this
  rw [decExpOf, h10]
  calc q.den = 2 ^ (stripFac 2 q.den q.den).1 * 5 ^ c := by
        conv_lhs => rw [← h2eq]
        rw [hr1]
    _ ∣ _ :=
      Nat.mul_dvd_mul (Nat.pow_dvd_pow 2 (le_max_left _ _))
        (Nat.pow_dvd_pow 5 (hcle.trans (le_max_right _ _)))

theorem stopOk_head {rest : List Char} (h : stopOk rest) :
    ∀ c, rest.head? = some c →
      isDig c = false ∧ c ≠ '.' ∧ c ≠ 'e' ∧ c ≠ 'E' := by
  cases rest with
  | nil => intro c hc; simp at hc
  | cons a t =>
    intro c hc
    have hac : a = c := by simpa using hc
    subst hac
    unfold stopOk at h
    simp only [Bool.or_eq_false_iff, decide_eq_false_iff_not] at h
    exact ⟨h.1.1.1, h.1.1.2, h.1.2, h.2⟩

theorem isDig_not_special {c : Char} (h : isDig c = true) :
    c ≠ '-' ∧ c ≠ '.' ∧ c ≠ 'e' ∧ c ≠ 'E' ∧ isJWs c = false ∧ c ≠ ']' ∧
    c ≠ '\x7d' ∧ c ≠ ',' ∧ c ≠ '"' ∧ c ≠ '[' ∧ c ≠ '\x7b' ∧ c ≠ 'n' ∧
    c ≠ 't' ∧ c ≠ 'f' := by
  have hb := isDig_bounds h
  refine ⟨?_, ?_, ?_, ?_, ?_, ?_, ?_, ?_, ?_, ?_, ?_, ?_, ?_, ?_⟩
  all_goals first
  | (intro heq; subst heq; revert h; decide)
  | (simp [isJWs]; omega)

theorem natToChars_cons (n : ℕ) :
    ∃ c cs, natToChars n = c :: cs ∧ isDig c = true := by
  cases hn : natToChars n with
  | nil => exact absurd hn (natToChars_ne_nil n)
  | cons c cs =>
    exact ⟨c, cs, rfl, natToChars_digits n c (by rw [hn]; simp)⟩

theorem parseNumSign_no_minus (c : Char) (l : List Char) (h : c ≠ '-') :
    parseNumSign (c :: l) = (false, c :: l) := by
  rw [parseNumSign.eq_def]
  split
  · rename_i t heq
    rw [List.cons.injEq] at heq
    exact absurd heq.1 h
  · rfl

theorem parseFracPart_no_dot (I : ℕ) (r : List Char)
    (h : ∀ c, r.head? = some c → c ≠ '.') :
    parseFracPart I r = ((I : ℚ), r) := by
  rw [parseFracPart.eq_def]
  split
  · rename_i t
    exact absurd rfl (h '.' rfl)
  · rfl

theorem parseExpPart_stop (v : ℚ) (r : List Char)
    (h : ∀ c, r.head? = some c → c ≠ 'e' ∧ c ≠ 'E') :
    parseExpPart v r = (v, r) := by
  rw [parseExpPart.eq_def]
  split
  · rename_i e t
    have hne : ¬(e = 'e' ∨ e = 'E') := by
      intro he
      rcases he with he | he
      · exact (h e rfl).1 he
      · exact (h e rfl).2 he
    rw [if_neg hne]
  · rfl

theorem parseNum_nat (N : ℕ) (rest : List Char) (hstop : stopOk rest) :
    parseNum (natToChars N ++ rest) = some ((N : ℚ), rest) := by
  obtain ⟨c, cs, hcons, hcd⟩ := natToChars_cons N
  have hspec := isDig_not_special hcd
  have halld : ∀ x ∈ natToChars N, isDig x = true := natToChars_digits N
  have hds : (natToChars N ++ rest).takeWhile isDig = natToChars N := by
    rw [takeWhile_all_append _ _ _ halld,
      takeWhile_nil_of_head _ _ (fun x hx => (stopOk_head hstop x hx).1)]
    simp
  have hdr : (natToChars N ++ rest).dropWhile isDig = rest := by
    rw [dropWhile_all_append _ _ _ halld]
    exact dropWhile_eq_self_of_head _ _ (fun x hx => (stopOk_head hstop x hx).1)
  have hsign : parseNumSign (natToChars N ++ rest) =
      (false, natToChars N ++ rest) := by
    rw [hcons, List.cons_append, parseNumSign_no_minus c _ hspec.1,
      ← List.cons_append, ← hcons]
  unfold parseNum
  rw [hsign]
  simp only [hds, hdr]
  rw [if_neg (by rw [hcons]; simp)]
  rw [digitsVal_natToChars]
  rw [parseFracPart_no_dot N rest (fun x hx => (stopOk_head hstop x hx).2.1)]
  rw [parseExpPart_stop ((N : ℚ)) rest (fun x hx =>
    ⟨(stopOk_head hstop x hx).2.2.1, (stopOk_head hstop x hx).2.2.2⟩)]
  simp

theorem parseNum_frac (N k : ℕ) (hk : 1 ≤ k) (rest : List Char)
    (hstop : stopOk rest) :
    parseNum ((natToChars (N / 10 ^ k) ++
      '.' :: (List.replicate (k - (natToChars (N % 10 ^ k)).length) '0'
        ++ natToChars (N % 10 ^ k))) ++ rest) = some (decQ N k, rest) := by
  obtain ⟨c, cs, hcons, hcd⟩ := natToChars_cons (N / 10 ^ k)
  have hspec := isDig_not_special hcd
  have hallI : ∀ x ∈ natToChars (N / 10 ^ k), isDig x = true :=
    natToChars_digits _
  have hallF : ∀ x ∈ List.replicate (k - (natToChars (N % 10 ^ k)).length) '0'
      ++ natToChars (N % 10 ^ k), isDig x = true := by
    intro x hx
    rcases List.mem_append.mp hx with hx | hx
    · rw [List.eq_of_mem_replicate hx]; decide
    · exact natToChars_digits _ x hx
  have hshape : (natToChars (N / 10 ^ k) ++
      '.' :: (List.replicate (k - (natToChars (N % 10 ^ k)).length) '0'
        ++ natToChars (N % 10 ^ k))) ++ rest =
      natToChars (N / 10 ^ k) ++
        '.' :: ((List.replicate (k - (natToChars (N % 10 ^ k)).length) '0'
          ++ natToChars (N % 10 ^ k)) ++ rest) := by
    simp
  rw [hshape]
  have hds : (natToChars (N / 10 ^ k) ++
      '.' :: ((List.replicate (k - (natToChars (N % 10 ^ k)).length) '0'
        ++ natToChars (N % 10 ^ k)) ++ rest)).takeWhile isDig =
      natToChars (N / 10 ^ k) := by
    rw [takeWhile_all_append _ _ _ hallI]
    simp [List.takeWhile_cons]
    decide
  have hdr : (natToChars (N / 10 ^ k) ++
      '.' :: ((List.replicate (k - (natToChars (N % 10 ^ k)).length) '0'
        ++ natToChars (N % 10 ^ k)) ++ rest)).dropWhile isDig =
      '.' :: ((List.replicate (k - (natToChars (N % 10 ^ k)).length) '0'
        ++ natToChars (N % 10 ^ k)) ++ rest) := by
    rw [dropWhile_all_append _ _ _ hallI]
    rw [List.dropWhile_cons]
    simp only [show isDig '.' = false from by decide]
    simp
  have hsign : parseNumSign (natToChars (N / 10 ^ k) ++
      '.' :: ((List.replicate (k - (natToChars (N % 10 ^ k)).length) '0'
        ++ natToChars (N % 10 ^ k)) ++ rest)) =
      (false, natToChars (N / 10 ^ k) ++
        '.' :: ((List.replicate (k - (natToChars (N % 10 ^ k)).length) '0'
          ++ natToChars (N % 10 ^ k)) ++ rest)) := by
    rw [hcons, List.cons_append, parseNumSign_no_minus c _ hspec.1,
      ← List.cons_append, ← hcons]
  have hfs : ((List.replicate (k - (natToChars (N % 10 ^ k)).length) '0'
      ++ natToChars (N % 10 ^ k)) ++ rest).takeWhile isDig =
      List.replicate (k - (natToChars (N % 10 ^ k)).length) '0'
        ++ natToChars (N % 10 ^ k) := by
    rw [takeWhile_all_append _ _ _ hallF,
      takeWhile_nil_of_head _ _ (fun x hx => (stopOk_head hstop x hx).1)]
    simp
  have hfr : ((List.replicate (k - (natToChars (N % 10 ^ k)).length) '0'
      ++ natToChars (N % 10 ^ k)) ++ rest).dropWhile isDig = rest := by
    rw [dropWhile_all_append _ _ _ hallF]
    exact dropWhile_eq_self_of_head _ _ (fun x hx => (stopOk_head hstop x hx).1)
  have hlenF : (natToChars (N % 10 ^ k)).length ≤ k :=
    natToChars_len_le k _ (Nat.mod_lt _ (by positivity)) hk
  have hlen : (List.replicate (k - (natToChars (N % 10 ^ k)).length) '0'
      ++ natToChars (N % 10 ^ k)).length = k := by
    simp [List.length_replicate]
    omega
  have hdv : digitsVal (List.replicate (k - (natToChars (N % 10 ^ k)).length) '0'
      ++ natToChars (N % 10 ^ k)) = N % 10 ^ k := by
    rw [show ('0' : Char) = Char.ofNat 48 from by decide, digitsVal_append_zeros,
      digitsVal_natToChars]
  unfold parseNum
  rw [hsign]
  simp only [hds, hdr]
  rw [if_neg (by rw [hcons]; simp)]
  rw [digitsVal_natToChars]
  simp only [parseFracPart]
  rw [hfs, hfr, hlen, hdv]
  have hNdm : N / 10 ^ k * 10 ^ k + N % 10 ^ k = N := by
    rw [Nat.mul_comm]
    exact Nat.div_add_mod N (10 ^ k)
  rw [hNdm]
  rw [parseExpPart_stop (decQ N k) rest (fun x hx =>
    ⟨(stopOk_head hstop x hx).2.2.1, (stopOk_head hstop x hx).2.2.2⟩)]
  simp

theorem cast_scaled_num (q : ℚ) (hq : 0 ≤ q)
    (hdvd : q.den ∣ 10 ^ decExpOf q) :
    ((q.num.toNat * (10 ^ decExpOf q / q.den) : ℕ) : ℚ) =
      q * 10 ^ decExpOf q := by
  have h1 : ((q.num.toNat * (10 ^ decExpOf q / q.den) : ℕ) : ℚ) =
      (q.num.toNat : ℚ) * ((10 ^ decExpOf q / q.den : ℕ) : ℚ) :=
    Nat.cast_mul _ _
  have h2 : ((10 ^ decExpOf q / q.den : ℕ) : ℚ) =
      (10 : ℚ) ^ decExpOf q / (q.den : ℚ) := by
    rw [Nat.cast_div hdvd (by exact_mod_cast q.den_pos.ne')]
    push_cast
    ring
  have h3 : (q.num.toNat : ℚ) = (q.num : ℚ) := by
    rw [← Int.cast_natCast, Int.toNat_of_nonneg (Rat.num_nonneg.mpr hq)]
  rw [h1, h2, h3]
  calc (q.num : ℚ) * ((10 : ℚ) ^ decExpOf q / (q.den : ℚ))
      = ((q.num : ℚ) / (q.den : ℚ)) * 10 ^ decExpOf q := by ring
    _ = q * 10 ^ decExpOf q := by rw [Rat.num_div_den]

theorem decQ_scaled (q : ℚ) (hq : 0 ≤ q) (hdvd : q.den ∣ 10 ^ decExpOf q) :
    decQ (q.num.toNat * (10 ^ decExpOf q / q.den)) (decExpOf q) = q := by
  rw [decQ, Rat.mkRat_eq_div]
  rw [show ((((q.num.toNat * (10 ^ decExpOf q / q.den) : ℕ) : ℤ)) : ℚ) =
      ((q.num.toNat * (10 ^ decExpOf q / q.den) : ℕ) : ℚ) from
    Int.cast_natCast _]
  rw [cast_scaled_num q hq hdvd]
  rw [show (((10 : ℕ) ^ decExpOf q : ℕ) : ℚ) = (10 : ℚ) ^ decExpOf q from by
    push_cast; ring]
  field_simp

theorem parseNum_numToChars (q : ℚ) (hq : 0 ≤ q) (hdec : IsDecQ q)
    (rest : List Char) (hstop : stopOk rest) :
    parseNum (numToChars q ++ rest) = some (q, rest) := by
  have hdvd := den_dvd_decExp q hdec
  have hnm : numToChars q = numToCharsNN q := by
    rw [numToChars, if_neg (not_lt.mpr hq)]
  have hemit0 : numToCharsNN q =
      if decExpOf q = 0 then
        natToChars (q.num.toNat * (10 ^ decExpOf q / q.den))
      else
        natToChars ((q.num.toNat * (10 ^ decExpOf q / q.den)) / 10 ^ decExpOf q)
          ++ '.' :: (List.replicate (decExpOf q -
              (natToChars ((q.num.toNat * (10 ^ decExpOf q / q.den))
                % 10 ^ decExpOf q)).length) '0'
            ++ natToChars ((q.num.toNat * (10 ^ decExpOf q / q.den))
                % 10 ^ decExpOf q)) := rfl
  by_cases hk0 : decExpOf q = 0
  · rw [hnm, hemit0, if_pos hk0, parseNum_nat _ rest hstop]
    rw [cast_scaled_num q hq hdvd, hk0]
    norm_num
  · rw [hnm, hemit0, if_neg hk0]
    rw [parseNum_frac (q.num.toNat * (10 ^ decExpOf q / q.den)) (decExpOf q)
      (by omega) rest hstop]
    rw [decQ_scaled q hq hdvd]

theorem skipWs_cons_not {c : Char} (l : List Char) (h : isJWs c = false) :
    skipWs (c :: l) = c :: l := by
  simp [skipWs, List.dropWhile_cons, h]

theorem skipWs_nlIndent (n : ℕ) (l : List Char) :
    skipWs (nlIndent n ++ l) = skipWs l := by
  unfold skipWs nlIndent
  rw [show ('\n' :: List.replicate n ' ') ++ l =
    '\n' :: (List.replicate n ' ' ++ l) from rfl]
  rw [List.dropWhile_cons]
  simp only [show isJWs '\n' = true from by decide, if_true]
  rw [dropWhile_all_append _ _ _ (fun c hc => by
    rw [List.eq_of_mem_replicate hc]; decide)]

theorem parseVal_eq_skipWs (fuel : ℕ) (cs : List Char) :
    parseVal fuel cs = parseVal fuel (skipWs cs) := by
  cases fuel with
  | zero => rfl
  | succ n =>
    unfold parseVal
    rw [show skipWs (skipWs cs) = skipWs cs from dropWhile_idem _ _]

theorem parseMember_eq_skipWs (fuel : ℕ) (cs : List Char) :
    parseMember fuel cs = parseMember fuel (skipWs cs) := by
  cases fuel with
  | zero => rfl
  | succ n =>
    unfold parseMember
    rw [show skipWs (skipWs cs) = skipWs cs from dropWhile_idem _ _]

theorem numToCharsNN_cons (q : ℚ) :
    ∃ c cs, numToCharsNN q = c :: cs ∧ isDig c = true := by
  have hemit0 : numToCharsNN q =
      if decExpOf q = 0 then
        natToChars (q.num.toNat * (10 ^ decExpOf q / q.den))
      else
        natToChars ((q.num.toNat * (10 ^ decExpOf q / q.den)) / 10 ^ decExpOf q)
          ++ '.' :: (List.replicate (decExpOf q -
              (natToChars ((q.num.toNat * (10 ^ decExpOf q / q.den))
                % 10 ^ decExpOf q)).length) '0'
            ++ natToChars ((q.num.toNat * (10 ^ decExpOf q / q.den))
                % 10 ^ decExpOf q)) := rfl
  by_cases hk : decExpOf q = 0
  · rw [hemit0, if_pos hk]
    exact natToChars_cons _
  · rw [hemit0, if_neg hk]
    obtain ⟨c, cs, hcons, hcd⟩ := natToChars_cons
      ((q.num.toNat * (10 ^ decExpOf q / q.den)) / 10 ^ decExpOf q)
    exact ⟨c, cs ++ _, by rw [hcons]; rfl, hcd⟩

theorem stringify_head (ind : ℕ) (v : JsVal) :
    ∃ c cs, stringifyVal ind v = c :: cs ∧ isJWs c = false ∧
      c ≠ ']' ∧ c ≠ '\x7d' := by
  cases v with
  | null => exact ⟨'n', _, rfl, by decide⟩
  | bool b =>
    cases b with
    | true => exact ⟨'t', _, rfl, by decide⟩
    | false => exact ⟨'f', _, rfl, by decide⟩
  | num x =>
    cases x with
    | nan => exact ⟨'n', _, rfl, by decide⟩
    | inf => exact ⟨'n', _, rfl, by decide⟩
    | ninf => exact ⟨'n', _, rfl, by decide⟩
    | fin q =>
      by_cases hq : q < 0
      · refine ⟨'-', numToCharsNN (-q), ?_, by decide⟩
        rw [show stringifyVal ind (JsVal.num (JsNum.fin q)) = numToChars q
          from rfl, numToChars, if_pos hq]
      · obtain ⟨c, cs, hcons, hcd⟩ := numToCharsNN_cons q
        have hs := isDig_not_special hcd
        refine ⟨c, cs, ?_, hs.2.2.2.2.1, hs.2.2.2.2.2.1, hs.2.2.2.2.2.2.1⟩
        rw [show stringifyVal ind (JsVal.num (JsNum.fin q)) = numToChars q
          from rfl, numToChars, if_neg hq, hcons]
  | str s => exact ⟨'"', _, rfl, by decide⟩
  | arr xs =>
    cases xs with
    | nil => exact ⟨'[', _, rfl, by decide⟩
    | cons x t => exact ⟨'[', _, rfl, by decide⟩
  | obj kvs =>
    cases kvs with
    | nil => exact ⟨'\x7b', _, rfl, by decide⟩
    | cons kv t => exact ⟨'\x7b', _, rfl, by decide⟩

theorem stopOk_arrTail (ind indc : ℕ) (xs : List JsVal) (rest : List Char) :
    stopOk (arrTailChars ind xs ++ (nlIndent indc ++ (']' :: rest))) := by
  cases xs with
  | nil => rw [show arrTailChars ind [] = [] from rfl]; simp [nlIndent, stopOk]; decide
  | cons x t =>
    rw [show arrTailChars ind (x :: t) =
      ',' :: nlIndent ind ++ stringifyVal ind x ++ arrTailChars ind t from rfl]
    simp only [List.cons_append]
    show stopOk (',' :: _)
    simp [stopOk]; decide

theorem stopOk_objTail (ind indc : ℕ) (kvs : List (String × JsVal))
    (rest : List Char) :
    stopOk (objTailChars ind kvs ++ (nlIndent indc ++ ('\x7d' :: rest))) := by
  cases kvs with
  | nil =>
    rw [show objTailChars ind [] = [] from rfl]; simp [nlIndent, stopOk]; decide
  | cons kv t =>
    rw [show objTailChars ind (kv :: t) =
      ',' :: nlIndent ind ++ memberChars ind kv ++ objTailChars ind t from rfl]
    simp only [List.cons_append]
    show stopOk (',' :: _)
    simp [stopOk]; decide

theorem parseVal_num_dispatch (fuel : ℕ) (c : Char) (r : List Char)
    (hws : isJWs c = false)
    (hd : c ≠ '"' ∧ c ≠ '[' ∧ c ≠ '\x7b' ∧ c ≠ 'n' ∧ c ≠ 't' ∧ c ≠ 'f') :
    parseVal (fuel + 1) (c :: r) =
      (parseNum (c :: r)).map (fun p => (JsVal.num (JsNum.fin p.1), p.2)) := by
  unfold parseVal
  rw [skipWs_cons_not r hws]
  split
  · rename_i r2 heq
    rw [List.cons.injEq] at heq
    exact absurd heq.1 hd.2.2.2.1
  · rename_i r2 heq
    rw [List.cons.injEq] at heq
    exact absurd heq.1 hd.2.2.2.2.1
  · rename_i r2 heq
    rw [List.cons.injEq] at heq
    exact absurd heq.1 hd.2.2.2.2.2
  · rename_i r2 heq
    rw [List.cons.injEq] at heq
    exact absurd heq.1 hd.1
  · rename_i r2 heq
    rw [List.cons.injEq] at heq
    exact absurd heq.1 hd.2.1
  · rename_i r2 heq
    rw [List.cons.injEq] at heq
    exact absurd heq.1 hd.2.2.1
  · rfl

theorem parseVal_arr_nil (fuel : ℕ) (r r2 : List Char) (h : skipWs r = ']' :: r2) :
    parseVal (fuel + 1) ('[' :: r) = some (JsVal.arr [], r2) := by
  unfold parseVal
  rw [skipWs_cons_not _ (by decide)]
  split
  · rename_i r3 heq
    exact absurd (List.cons.injEq .. |>.mp heq).1 (by decide)
  · rename_i r3 heq
    exact absurd (List.cons.injEq .. |>.mp heq).1 (by decide)
  · rename_i r3 heq
    exact absurd (List.cons.injEq .. |>.mp heq).1 (by decide)
  · rename_i r3 heq
    exact absurd (List.cons.injEq .. |>.mp heq).1 (by decide)
  · rename_i r3 heq
    obtain ⟨-, h2⟩ := List.cons.injEq .. |>.mp heq
    subst h2
    rw [h]
    split
    · rename_i r4 heq2
      obtain ⟨-, h4⟩ := List.cons.injEq .. |>.mp heq2
      rw [h4]
    · rename_i hne2
      exact absurd rfl (hne2 r2)
  · rename_i r3 heq
    exact absurd (List.cons.injEq .. |>.mp heq).1 (by decide)
  · rename_i hn1 hn2 hn3 hn4 hn5 hn6
    exact absurd rfl (hn5 r)

theorem parseVal_arr_step (fuel : ℕ) (r r2 : List Char) (h : skipWs r = r2)
    (hne : ∀ t, r2 ≠ ']' :: t) :
    parseVal (fuel + 1) ('[' :: r) =
      (parseVal fuel r2).bind (fun p =>
        (parseArrTail fuel p.2).bind (fun q =>
          some (JsVal.arr (p.1 :: q.1), q.2))) := by
  conv_lhs => rw [parseVal]
  rw [skipWs_cons_not _ (by decide)]
  split
  · rename_i r3 heq
    exact absurd (List.cons.injEq .. |>.mp heq).1 (by decide)
  · rename_i r3 heq
    exact absurd (List.cons.injEq .. |>.mp heq).1 (by decide)
  · rename_i r3 heq
    exact absurd (List.cons.injEq .. |>.mp heq).1 (by decide)
  · rename_i r3 heq
    exact absurd (List.cons.injEq .. |>.mp heq).1 (by decide)
  · rename_i r3 heq
    obtain ⟨-, h2⟩ := List.cons.injEq .. |>.mp heq
    subst h2
    rw [h]
    split
    · rename_i t
      exact absurd rfl (hne t)
    · rfl
  · rename_i r3 heq
    exact absurd (List.cons.injEq .. |>.mp heq).1 (by decide)
  · rename_i hn1 hn2 hn3 hn4 hn5 hn6
    exact absurd rfl (hn5 r)

theorem parseVal_obj_nil (fuel : ℕ) (r r2 : List Char)
    (h : skipWs r = '\x7d' :: r2) :
    parseVal (fuel + 1) ('\x7b' :: r) = some (JsVal.obj [], r2) := by
  conv_lhs => rw [parseVal]
  rw [skipWs_cons_not _ (by decide)]
  split
  · rename_i r3 heq
    exact absurd (List.cons.injEq .. |>.mp heq).1 (by decide)
  · rename_i r3 heq
    exact absurd (List.cons.injEq .. |>.mp heq).1 (by decide)
  · rename_i r3 heq
    exact absurd (List.cons.injEq .. |>.mp heq).1 (by decide)
  · rename_i r3 heq
    exact absurd (List.cons.injEq .. |>.mp heq).1 (by decide)
  · rename_i r3 heq
    exact absurd (List.cons.injEq .. |>.mp heq).1 (by decide)
  · rename_i r3 heq
    obtain ⟨-, h2⟩ := List.cons.injEq .. |>.mp heq
    subst h2
    rw [h]
    split
    · rename_i r4 heq2
      obtain ⟨-, h4⟩ := List.cons.injEq .. |>.mp heq2
      rw [h4]
    · rename_i hne2
      exact absurd rfl (hne2 r2)
  · rename_i hn1 hn2 hn3 hn4 hn5 hn6
    exact absurd rfl (hn6 r)

theorem parseVal_obj_step (fuel : ℕ) (r r2 : List Char) (h : skipWs r = r2)
    (hne : ∀ t, r2 ≠ '\x7d' :: t) :
    parseVal (fuel + 1) ('\x7b' :: r) =
      (parseMember fuel r2).bind (fun p =>
        (parseObjTail fuel p.2).bind (fun q =>
          some (JsVal.obj (p.1 :: q.1), q.2))) := by
  conv_lhs => rw [parseVal]
  rw [skipWs_cons_not _ (by decide)]
  split
  · rename_i r3 heq
    exact absurd (List.cons.injEq .. |>.mp heq).1 (by decide)
  · rename_i r3 heq
    exact absurd (List.cons.injEq .. |>.mp heq).1 (by decide)
  · rename_i r3 heq
    exact absurd (List.cons.injEq .. |>.mp heq).1 (by decide)
  · rename_i r3 heq
    exact absurd (List.cons.injEq .. |>.mp heq).1 (by decide)
  · rename_i r3 heq
    exact absurd (List.cons.injEq .. |>.mp heq).1 (by decide)
  · rename_i r3 heq
    obtain ⟨-, h2⟩ := List.cons.injEq .. |>.mp heq
    subst h2
    rw [h]
    split
    · rename_i t
      exact absurd rfl (hne t)
    · rfl
  · rename_i hn1 hn2 hn3 hn4 hn5 hn6
    exact absurd rfl (hn6 r)

theorem parseArrTail_close (fuel : ℕ) (r r2 : List Char)
    (h : skipWs r = ']' :: r2) :
    parseArrTail (fuel + 1) r = some ([], r2) := by
  conv_lhs => rw [parseArrTail]
  rw [h]
  split
  · rename_i r3 heq
    obtain ⟨-, h2⟩ := List.cons.injEq .. |>.mp heq
    rw [h2]
  · rename_i r3 heq
    exact absurd (List.cons.injEq .. |>.mp heq).1 (by decide)
  · rename_i hn1 hn2
    exact absurd rfl (hn1 r2)

theorem parseArrTail_comma (fuel : ℕ) (r r2 : List Char)
    (h : skipWs r = ',' :: r2) :
    parseArrTail (fuel + 1) r =
      (parseVal fuel r2).bind (fun p =>
        (parseArrTail fuel p.2).bind (fun q => some (p.1 :: q.1, q.2))) := by
  conv_lhs => rw [parseArrTail]
  rw [h]
  split
  · rename_i r3 heq
    exact absurd (List.cons.injEq .. |>.mp heq).1 (by decide)
  · rename_i r3 heq
    obtain ⟨-, h2⟩ := List.cons.injEq .. |>.mp heq
    subst h2
    rfl
  · rename_i hn1 hn2
    exact absurd rfl (hn2 r2)

theorem parseObjTail_close (fuel : ℕ) (r r2 : List Char)
    (h : skipWs r = '\x7d' :: r2) :
    parseObjTail (fuel + 1) r = some ([], r2) := by
  conv_lhs => rw [parseObjTail]
  rw [h]
  split
  · rename_i r3 heq
    obtain ⟨-, h2⟩ := List.cons.injEq .. |>.mp heq
    rw [h2]
  · rename_i r3 heq
    exact absurd (List.cons.injEq .. |>.mp heq).1 (by decide)
  · rename_i hn1 hn2
    exact absurd rfl (hn1 r2)

theorem parseObjTail_comma (fuel : ℕ) (r r2 : List Char)
    (h : skipWs r = ',' :: r2) :
    parseObjTail (fuel + 1) r =
      (parseMember fuel r2).bind (fun p =>
        (parseObjTail fuel p.2).bind (fun q => some (p.1 :: q.1, q.2))) := by
  conv_lhs => rw [parseObjTail]
  rw [h]
  split
  · rename_i r3 heq
    exact absurd (List.cons.injEq .. |>.mp heq).1 (by decide)
  · rename_i r3 heq
    obtain ⟨-, h2⟩ := List.cons.injEq .. |>.mp heq
    subst h2
    rfl
  · rename_i hn1 hn2
    exact absurd rfl (hn2 r2)

theorem parseMember_step (fuel : ℕ) (cs r : List Char) (k : List Char)
    (r2 r3 : List Char) (h : skipWs cs = '"' :: r)
    (hsb : parseStrBody r = some (k, r2)) (hc : skipWs r2 = ':' :: r3) :
    parseMember (fuel + 1) cs =
      (parseVal fuel r3).map (fun p => ((String.mk k, p.1), p.2)) := by
  conv_lhs => rw [parseMember]
  rw [h]
  split
  · rename_i r4 heq
    obtain ⟨-, h2⟩ := List.cons.injEq .. |>.mp heq
    subst h2
    rw [hsb]
    split
    · rename_i heq2
      exact absurd heq2 (by simp)
    · rename_i k2 r22 heq2
      have h3 : (k, r2) = (k2, r22) := by simpa using heq2
      obtain ⟨h4, h5⟩ := Prod.mk.injEq .. |>.mp h3
      subst h4
      subst h5
      rw [hc]
      split
      · rename_i r5 heq3
        obtain ⟨-, h5⟩ := List.cons.injEq .. |>.mp heq3
        rw [h5]
      · rename_i hn1
        exact absurd rfl (hn1 r3)
  · rename_i hn1
    exact absurd rfl (hn1 r)

theorem skipWs_space (l : List Char) : skipWs (' ' :: l) = skipWs l := by
  rw [skipWs, skipWs, List.dropWhile_cons, if_pos (by decide)]

theorem parse_stringify : ∀ fuel : ℕ,
    (∀ v ind rest, GoodNums v → (stringifyVal ind v).length < fuel →
      stopOk rest →
      parseVal fuel (stringifyVal ind v ++ rest) = some (normVal v, rest)) ∧
    (∀ xs ind indc rest, (∀ x ∈ xs, GoodNums x) →
      (arrTailChars ind xs).length < fuel →
      parseArrTail fuel
        (arrTailChars ind xs ++ (nlIndent indc ++ (']' :: rest))) =
        some (normList xs, rest)) ∧
    (∀ kv ind rest, GoodNums (Prod.snd kv) →
      (memberChars ind kv).length < fuel → stopOk rest →
      parseMember fuel (memberChars ind kv ++ rest) =
        some ((kv.1, normVal kv.2), rest)) ∧
    (∀ kvs ind indc rest, (∀ kv ∈ kvs, GoodNums (Prod.snd kv)) →
      (objTailChars ind kvs).length < fuel →
      parseObjTail fuel
        (objTailChars ind kvs ++ (nlIndent indc ++ ('\x7d' :: rest))) =
        some (normMembers kvs, rest)) := by
  intro fuel
  induction fuel with
  | zero =>
    exact ⟨fun v ind rest hg hlen hstop => absurd hlen (by omega),
           fun xs ind indc rest hg hlen => absurd hlen (by omega),
           fun kv ind rest hg hlen hstop => absurd hlen (by omega),
           fun kvs ind indc rest hg hlen => absurd hlen (by omega)⟩
  | succ n ih =>
    obtain ⟨ihV, ihA, ihM, ihO⟩ := ih
    refine ⟨?_, ?_, ?_, ?_⟩
    · intro v ind rest hg hlen hstop
      cases v with
      | null =>
        rw [show stringifyVal ind JsVal.null = ['n','u','l','l'] from rfl]
        simp only [List.cons_append, List.nil_append]
        unfold parseVal
        rw [skipWs_cons_not _ (by decide)]
        simp [normVal]
      | bool b =>
        cases b with
        | true =>
          rw [show stringifyVal ind (JsVal.bool true) = ['t','r','u','e']
            from rfl]
          simp only [List.cons_append, List.nil_append]
          unfold parseVal
          rw [skipWs_cons_not _ (by decide)]
          simp [normVal]
        | false =>
          rw [show stringifyVal ind (JsVal.bool false) = ['f','a','l','s','e']
            from rfl]
          simp only [List.cons_append, List.nil_append]
          unfold parseVal
          rw [skipWs_cons_not _ (by decide)]
          simp [normVal]
      | num x =>
        cases x with
        | nan =>
          rw [show stringifyVal ind (JsVal.num JsNum.nan) = ['n','u','l','l']
            from rfl]
          simp only [List.cons_append, List.nil_append]
          unfold parseVal
          rw [skipWs_cons_not _ (by decide)]
          simp [normVal]
        | inf =>
          rw [show stringifyVal ind (JsVal.num JsNum.inf) = ['n','u','l','l']
            from rfl]
          simp only [List.cons_append, List.nil_append]
          unfold parseVal
          rw [skipWs_cons_not _ (by decide)]
          simp [normVal]
        | ninf =>
          rw [show stringifyVal ind (JsVal.num JsNum.ninf) = ['n','u','l','l']
            from rfl]
          simp only [List.cons_append, List.nil_append]
          unfold parseVal
          rw [skipWs_cons_not _ (by decide)]
          simp [normVal]
        | fin q =>
          have hq : 0 ≤ q := by cases hg with | gfin q hq hdec => exact hq
          have hdec : IsDecQ q := by
            cases hg with | gfin q hq hdec => exact hdec
          obtain ⟨c, cs, hcons, hcd⟩ := numToCharsNN_cons q
          have hspec := isDig_not_special hcd
          have hnm : stringifyVal ind (JsVal.num (JsNum.fin q)) =
              numToCharsNN q := by
            rw [show stringifyVal ind (JsVal.num (JsNum.fin q)) = numToChars q
              from rfl, numToChars, if_neg (not_lt.mpr hq)]
          rw [hnm, hcons, List.cons_append]
          rw [parseVal_num_dispatch n c _ hspec.2.2.2.2.1
            ⟨hspec.2.2.2.2.2.2.2.2.1, hspec.2.2.2.2.2.2.2.2.2.1,
             hspec.2.2.2.2.2.2.2.2.2.2.1, hspec.2.2.2.2.2.2.2.2.2.2.2.1,
             hspec.2.2.2.2.2.2.2.2.2.2.2.2.1,
             hspec.2.2.2.2.2.2.2.2.2.2.2.2.2⟩]
          rw [← List.cons_append, ← hcons]
          rw [show numToCharsNN q = numToChars q from by
            rw [numToChars, if_neg (not_lt.mpr hq)]]
          rw [parseNum_numToChars q hq hdec rest hstop]
          simp [normVal]
      | str s =>
        rw [show stringifyVal ind (JsVal.str s) =
          '"' :: (escapeChars s.data ++ ['"']) from rfl]
        simp only [List.cons_append, List.append_assoc, List.singleton_append]
        unfold parseVal
        rw [skipWs_cons_not _ (by decide)]
        simp only [parseStrBody_escape s.data rest]
        simp [normVal]
        exact ⟨s.data, parseStrBody_escape s.data rest, rfl⟩
      | arr xs =>
        cases xs with
        | nil =>
          rw [show stringifyVal ind (JsVal.arr []) = ['[', ']'] from rfl]
          simp only [List.cons_append, List.nil_append]
          rw [parseVal_arr_nil n (']' :: rest) rest
            (skipWs_cons_not _ (by decide))]
          simp [normVal, normList]
        | cons x t =>
          have hall : ∀ y ∈ x :: t, GoodNums y := by
            cases hg with | garr xs hall => exact hall
          obtain ⟨c, cs, hcons, hws, hnbr, hnbc⟩ := stringify_head (ind + 2) x
          have hemit : stringifyVal ind (JsVal.arr (x :: t)) =
              '[' :: (nlIndent (ind + 2) ++ stringifyVal (ind + 2) x
                ++ arrTailChars (ind + 2) t ++ nlIndent ind ++ [']']) := rfl
          rw [hemit] at hlen ⊢
          simp only [List.length_cons, List.length_append, nlIndent,
            List.length_replicate] at hlen
          simp only [List.cons_append, List.append_assoc,
            List.singleton_append, List.nil_append]
          have hskip : skipWs (nlIndent (ind + 2) ++
              (stringifyVal (ind + 2) x ++ (arrTailChars (ind + 2) t ++
                (nlIndent ind ++ (']' :: rest))))) =
              stringifyVal (ind + 2) x ++ (arrTailChars (ind + 2) t ++
                (nlIndent ind ++ (']' :: rest))) := by
            rw [skipWs_nlIndent, hcons, List.cons_append,
              skipWs_cons_not _ hws]
          have hne : ∀ tl, stringifyVal (ind + 2) x ++
              (arrTailChars (ind + 2) t ++ (nlIndent ind ++ (']' :: rest)))
              ≠ ']' :: tl := by
            intro tl heq
            rw [hcons, List.cons_append, List.cons.injEq] at heq
            exact hnbr heq.1
          rw [parseVal_arr_step n _ _ hskip hne]
          rw [ihV x (ind + 2)
            (arrTailChars (ind + 2) t ++ (nlIndent ind ++ (']' :: rest)))
            (hall x (List.mem_cons_self x t)) (by omega)
            (stopOk_arrTail (ind + 2) ind t rest)]
          simp only [Option.some_bind]
          rw [ihA t (ind + 2) ind rest
            (fun y hy => hall y (List.mem_cons_of_mem _ hy)) (by omega)]
          simp [normVal, normList]
      | obj kvs =>
        cases kvs with
        | nil =>
          rw [show stringifyVal ind (JsVal.obj []) = ['\x7b', '\x7d'] from rfl]
          simp only [List.cons_append, List.nil_append]
          rw [parseVal_obj_nil n ('\x7d' :: rest) rest
            (skipWs_cons_not _ (by decide))]
          simp [normVal, normMembers]
        | cons kv t =>
          have hall : ∀ y ∈ kv :: t, GoodNums (Prod.snd y) := by
            cases hg with | gobj kvs hall => exact hall
          have hmform : memberChars (ind + 2) kv =
              '"' :: (escapeChars kv.1.data ++ ['"', ':', ' '])
                ++ stringifyVal (ind + 2) kv.2 := by
            rw [memberChars]
          have hemit : stringifyVal ind (JsVal.obj (kv :: t)) =
              '\x7b' :: (nlIndent (ind + 2) ++ memberChars (ind + 2) kv
                ++ objTailChars (ind + 2) t ++ nlIndent ind ++ ['\x7d']) := rfl
          rw [hemit] at hlen ⊢
          simp only [List.length_cons, List.length_append, nlIndent,
            List.length_replicate] at hlen
          simp only [List.cons_append, List.append_assoc,
            List.singleton_append, List.nil_append]
          have hskip : skipWs (nlIndent (ind + 2) ++
              (memberChars (ind + 2) kv ++ (objTailChars (ind + 2) t ++
                (nlIndent ind ++ ('\x7d' :: rest))))) =
              memberChars (ind + 2) kv ++ (objTailChars (ind + 2) t ++
                (nlIndent ind ++ ('\x7d' :: rest))) := by
            rw [skipWs_nlIndent, hmform]
            simp only [List.cons_append, List.append_assoc]
            rw [skipWs_cons_not _ (by decide)]
          have hne : ∀ tl, memberChars (ind + 2) kv ++
              (objTailChars (ind + 2) t ++ (nlIndent ind ++ ('\x7d' :: rest)))
              ≠ '\x7d' :: tl := by
            intro tl heq
            rw [hmform] at heq
            simp only [List.cons_append, List.append_assoc,
              List.cons.injEq] at heq
            exact absurd heq.1 (by decide)
          rw [parseVal_obj_step n _ _ hskip hne]
          rw [ihM kv (ind + 2)
            (objTailChars (ind + 2) t ++ (nlIndent ind ++ ('\x7d' :: rest)))
            (hall kv (List.mem_cons_self kv t)) (by omega)
            (stopOk_objTail (ind + 2) ind t rest)]
          simp only [Option.some_bind]
          rw [ihO t (ind + 2) ind rest
            (fun y hy => hall y (List.mem_cons_of_mem _ hy)) (by omega)]
          simp [normVal, normMembers]
    · intro xs ind indc rest hall hlen
      cases xs with
      | nil =>
        rw [show arrTailChars ind [] = [] from rfl, List.nil_append]
        rw [parseArrTail_close n _ rest (by
          rw [skipWs_nlIndent]
          exact skipWs_cons_not _ (by decide))]
        simp [normList]
      | cons x t =>
        obtain ⟨c, cs, hcons, hws, hnbr, hnbc⟩ := stringify_head ind x
        have hemit : arrTailChars ind (x :: t) =
            ',' :: nlIndent ind ++ stringifyVal ind x
              ++ arrTailChars ind t := rfl
        rw [hemit] at hlen ⊢
        simp only [List.length_cons, List.length_append, nlIndent,
          List.length_replicate] at hlen
        simp only [List.cons_append, List.append_assoc, List.nil_append]
        rw [parseArrTail_comma n _ _ (skipWs_cons_not _ (by decide))]
        have hstrip : parseVal n (nlIndent ind ++ (stringifyVal ind x ++
            (arrTailChars ind t ++ (nlIndent indc ++ (']' :: rest))))) =
            parseVal n (stringifyVal ind x ++
              (arrTailChars ind t ++ (nlIndent indc ++ (']' :: rest)))) := by
          rw [parseVal_eq_skipWs, skipWs_nlIndent, ← parseVal_eq_skipWs]
        rw [hstrip]
        rw [ihV x ind
          (arrTailChars ind t ++ (nlIndent indc ++ (']' :: rest)))
          (hall x (List.mem_cons_self x t)) (by omega)
          (stopOk_arrTail ind indc t rest)]
        simp only [Option.some_bind]
        rw [ihA t ind indc rest
          (fun y hy => hall y (List.mem_cons_of_mem _ hy)) (by omega)]
        simp [normList]
    · intro kv ind rest hg hlen hstop
      obtain ⟨k, v⟩ := kv
      have hmform : memberChars ind (k, v) =
          '"' :: (escapeChars k.data ++ ['"', ':', ' '])
            ++ stringifyVal ind v := rfl
      rw [hmform] at hlen ⊢
      simp only [List.length_cons, List.length_append] at hlen
      simp only [List.cons_append, List.append_assoc, List.nil_append]
      rw [parseMember_step n _
        (escapeChars k.data ++ ('"' :: (':' :: (' ' :: (stringifyVal ind v
          ++ rest))))) k.data
        (':' :: (' ' :: (stringifyVal ind v ++ rest)))
        (' ' :: (stringifyVal ind v ++ rest))
        (skipWs_cons_not _ (by decide))
        (parseStrBody_escape k.data _)
        (skipWs_cons_not _ (by decide))]
      have hstrip : parseVal n (' ' :: (stringifyVal ind v ++ rest)) =
          parseVal n (stringifyVal ind v ++ rest) := by
        rw [parseVal_eq_skipWs, skipWs_space, ← parseVal_eq_skipWs]
      rw [hstrip]
      rw [ihV v ind rest hg (by omega) hstop]
      simp
    · intro kvs ind indc rest hall hlen
      cases kvs with
      | nil =>
        rw [show objTailChars ind [] = [] from rfl, List.nil_append]
        rw [parseObjTail_close n _ rest (by
          rw [skipWs_nlIndent]
          exact skipWs_cons_not _ (by decide))]
        simp [normMembers]
      | cons kv t =>
        have hemit : objTailChars ind (kv :: t) =
            ',' :: nlIndent ind ++ memberChars ind kv
              ++ objTailChars ind t := rfl
        rw [hemit] at hlen ⊢
        simp only [List.length_cons, List.length_append, nlIndent,
          List.length_replicate] at hlen
        simp only [List.cons_append, List.append_assoc, List.nil_append]
        rw [parseObjTail_comma n _ _ (skipWs_cons_not _ (by decide))]
        have hstrip : parseMember n (nlIndent ind ++ (memberChars ind kv ++
            (objTailChars ind t ++ (nlIndent indc ++ ('\x7d' :: rest))))) =
            parseMember n (memberChars ind kv ++
              (objTailChars ind t ++ (nlIndent indc ++ ('\x7d' :: rest)))) := by
          rw [parseMember_eq_skipWs, skipWs_nlIndent, ← parseMember_eq_skipWs]
        rw [hstrip]
        rw [ihM kv ind
          (objTailChars ind t ++ (nlIndent indc ++ ('\x7d' :: rest)))
          (hall kv (List.mem_cons_self kv t)) (by omega)
          (stopOk_objTail ind indc t rest)]
        simp only [Option.some_bind]
        rw [ihO t ind indc rest
          (fun y hy => hall y (List.mem_cons_of_mem _ hy)) (by omega)]
        simp [normMembers]

theorem jsonParse_stringify (v : JsVal) (hg : GoodNums v) :
    jsonParse (jsonStringify2 v) = some (normVal v) := by
  unfold jsonParse jsonStringify2
  have h := (parse_stringify ((stringifyVal 0 v).length + 1)).1 v 0 []
    hg (by omega) trivial
  rw [List.append_nil] at h
  rw [show (String.mk (stringifyVal 0 v)).data = stringifyVal 0 v from rfl]
  rw [h]
  simp [skipWs]

theorem normList_strMap (l : List String) :
    normList (l.map JsVal.str) = l.map JsVal.str := by
  induction l with
  | nil => rfl
  | cons s t ih => simp [normList, normVal, ih]

theorem normVal_obj (kvs : List (String × JsVal)) :
    normVal (JsVal.obj kvs) = JsVal.obj (normMembers kvs) := rfl

theorem normVal_arr (xs : List JsVal) :
    normVal (JsVal.arr xs) = JsVal.arr (normList xs) := rfl

theorem normVal_str (s : String) : normVal (JsVal.str s) = JsVal.str s := rfl

theorem normVal_bool (b : Bool) : normVal (JsVal.bool b) = JsVal.bool b := rfl

theorem normVal_fin (q : ℚ) :
    normVal (JsVal.num (JsNum.fin q)) = JsVal.num (JsNum.fin q) := rfl

theorem normMembers_cons (k : String) (v : JsVal)
    (t : List (String × JsVal)) :
    normMembers ((k, v) :: t) = (k, normVal v) :: normMembers t := rfl

theorem normMembers_nil : normMembers [] = [] := rfl

theorem normVal_authVal (a : AuthSpec) : normVal (authVal a) = authVal a := by
  unfold authVal
  cases a.instructions with
  | none => rfl
  | some i => rfl

theorem normVal_actionVal (a : CustomAction) :
    normVal (actionVal a) = actionVal a := by
  unfold actionVal
  cases ha : a.auth with
  | none => rfl
  | some au =>
    simp only [List.cons_append, List.nil_append, normVal_obj,
      normMembers_cons, normMembers_nil, normVal_str, normVal_authVal]

theorem normList_actionMap (l : List CustomAction) :
    normList (l.map actionVal) = l.map actionVal := by
  induction l with
  | nil => rfl
  | cons a t ih => simp [normList, normVal_actionVal, ih]

theorem normVal_starterVal (st : ConversationStarter) :
    normVal (starterVal st) = starterVal st := rfl

theorem normList_starterMap (l : List ConversationStarter) :
    normList (l.map starterVal) = l.map starterVal := by
  induction l with
  | nil => rfl
  | cons a t ih => simp [normList, normVal_starterVal, ih]

theorem normVal_docVal (d : CustomGPTConfig) (q : ℚ)
    (hq : d.memory.dataRetentionDays = JsNum.fin q) :
    normVal (docVal d) = docVal d := by
  unfold docVal
  rw [hq]
  simp only [normVal_obj, normMembers_cons, normMembers_nil, normVal_str,
    normVal_bool, normVal_arr, normVal_fin, normList_strMap,
    normList_actionMap, normList_starterMap]

theorem isDecQ_zero : IsDecQ 0 := ⟨0, by norm_num⟩

theorem isDecQ_natCast (n : ℕ) : IsDecQ (n : ℚ) :=
  ⟨0, by simp [Rat.den_natCast]⟩

theorem isDecQ_decQ (n k : ℕ) : IsDecQ (decQ n k) := by
  refine ⟨k, ?_⟩
  have h : (((decQ n k).den : ℤ)) ∣ (((10 : ℕ) ^ k : ℕ) : ℤ) := by
    rw [decQ, Rat.mkRat_eq_divInt]
    exact Rat.den_dvd _ _
  exact_mod_cast h

theorem isDecQ_neg (q : ℚ) (h : IsDecQ q) : IsDecQ (-q) := by
  obtain ⟨m, hm⟩ := h
  exact ⟨m, by simpa [Rat.neg_den] using hm⟩

theorem isDecQ_max0 (q : ℚ) (h : IsDecQ q) : IsDecQ (max 0 q) := by
  rcases le_total q 0 with hle | hle
  · rw [max_eq_left hle]; exact isDecQ_zero
  · rw [max_eq_right hle]; exact h

theorem capQ_fin (q q' : ℚ) (h : capQ q = JsNum.fin q') : q' = q := by
  rw [capQ] at h
  split at h
  · exact JsNum.noConfusion h
  · split at h
    · exact JsNum.noConfusion h
    · exact (JsNum.fin.inj h).symm

theorem jsNumber_fin_dec (s : String) (q : ℚ)
    (h : jsNumber s = JsNum.fin q) : IsDecQ q := by
  rw [jsNumber] at h
  split at h
  · exact (JsNum.fin.inj h) ▸ isDecQ_zero
  · split at h
    · split at h
      · exact (capQ_fin _ _ h) ▸ isDecQ_natCast _
      · exact JsNum.noConfusion h
    · split at h
      · split at h
        · exact (capQ_fin _ _ h) ▸ isDecQ_natCast _
        · exact JsNum.noConfusion h
      · split at h
        · split at h
          · exact (capQ_fin _ _ h) ▸ isDecQ_natCast _
          · exact JsNum.noConfusion h
        · split at h
          · exact (capQ_fin _ _ h) ▸ isDecQ_decQ _ _
          · exact JsNum.noConfusion h
  · split at h
    · split at h
      · split at h <;> exact JsNum.noConfusion h
      · split at h
        · have h2 := capQ_fin _ _ h
          rw [h2]
          split
          · exact isDecQ_neg _ (isDecQ_decQ _ _)
          · exact isDecQ_decQ _ _
        · exact JsNum.noConfusion h

theorem retentionDays_classify (r : String) :
    retentionDays r = JsNum.inf ∨
      ∃ q, retentionDays r = JsNum.fin q ∧ 0 ≤ q ∧ IsDecQ q := by
  rw [retentionDays]
  cases hjs : jsNumber r with
  | nan => exact Or.inr ⟨0, rfl, le_refl 0, isDecQ_zero⟩
  | inf => exact Or.inl rfl
  | ninf => exact Or.inr ⟨0, rfl, le_refl 0, isDecQ_zero⟩
  | fin q =>
    have hdec := jsNumber_fin_dec r q hjs
    by_cases hq0 : q = 0
    · exact Or.inr ⟨max 0 0, by simp [jsOrZero, hq0, jsMax0],
        le_max_left 0 0, by simpa using isDecQ_zero⟩
    · exact Or.inr ⟨max 0 q, by simp [jsOrZero, hq0, jsMax0],
        le_max_left 0 q, isDecQ_max0 q hdec⟩

theorem goodNums_strMap (l : List String) :
    GoodNums (JsVal.arr (l.map JsVal.str)) := by
  refine GoodNums.garr _ ?_
  intro x hx
  obtain ⟨s, _, rfl⟩ := List.mem_map.mp hx
  exact GoodNums.gstr s

theorem goodNums_authVal (a : AuthSpec) : GoodNums (authVal a) := by
  rw [authVal]
  refine GoodNums.gobj _ ?_
  intro kv hkv
  cases ha : a.instructions with
  | none =>
    rw [ha] at hkv
    simp only [List.append_nil, List.mem_singleton] at hkv
    rw [hkv]
    exact GoodNums.gstr _
  | some i =>
    rw [ha] at hkv
    simp only [List.cons_append, List.nil_append, List.mem_cons,
      List.not_mem_nil, or_false] at hkv
    rcases hkv with rfl | rfl
    · exact GoodNums.gstr _
    · exact GoodNums.gstr _

theorem goodNums_actionVal (a : CustomAction) : GoodNums (actionVal a) := by
  rw [actionVal]
  refine GoodNums.gobj _ ?_
  intro kv hkv
  cases ha : a.auth with
  | none =>
    rw [ha] at hkv
    simp only [List.append_nil, List.mem_cons, List.not_mem_nil,
      or_false] at hkv
    rcases hkv with rfl | rfl | rfl
    · exact GoodNums.gstr _
    · exact GoodNums.gstr _
    · exact GoodNums.gstr _
  | some au =>
    rw [ha] at hkv
    simp only [List.cons_append, List.nil_append, List.mem_cons,
      List.not_mem_nil, or_false] at hkv
    rcases hkv with rfl | rfl | rfl | rfl
    · exact GoodNums.gstr _
    · exact GoodNums.gstr _
    · exact GoodNums.gstr _
    · exact goodNums_authVal au

theorem goodNums_actionArr (l : List CustomAction) :
    GoodNums (JsVal.arr (l.map actionVal)) := by
  refine GoodNums.garr _ ?_
  intro x hx
  obtain ⟨a, _, rfl⟩ := List.mem_map.mp hx
  exact goodNums_actionVal a

theorem goodNums_starterVal (st : ConversationStarter) :
    GoodNums (starterVal st) := by
  refine GoodNums.gobj _ ?_
  intro kv hkv
  simp only [starterVal, List.mem_cons, List.not_mem_nil, or_false] at hkv
  rcases hkv with rfl | rfl
  · exact GoodNums.gstr _
  · exact GoodNums.gstr _

theorem goodNums_starterArr (l : List ConversationStarter) :
    GoodNums (JsVal.arr (l.map starterVal)) := by
  refine GoodNums.garr _ ?_
  intro x hx
  obtain ⟨a, _, rfl⟩ := List.mem_map.mp hx
  exact goodNums_starterVal a

theorem goodNums_num_any (x : JsNum)
    (h : ∀ q, x = JsNum.fin q → 0 ≤ q ∧ IsDecQ q) :
    GoodNums (JsVal.num x) := by
  cases x with
  | nan => exact GoodNums.gnan
  | inf => exact GoodNums.ginf
  | ninf => exact GoodNums.gninf
  | fin q =>
    obtain ⟨h1, h2⟩ := h q rfl
    exact GoodNums.gfin q h1 h2

theorem goodNums_docVal (d : CustomGPTConfig)
    (h : ∀ q, d.memory.dataRetentionDays = JsNum.fin q → 0 ≤ q ∧ IsDecQ q) :
    GoodNums (docVal d) := by
  rw [docVal]
  refine GoodNums.gobj _ ?_
  intro kv hkv
  simp only [List.mem_cons, List.not_mem_nil, or_false] at hkv
  rcases hkv with rfl | rfl | rfl | rfl | rfl | rfl | rfl | rfl | rfl | rfl |
    rfl | rfl | rfl | rfl | rfl
  · exact GoodNums.gstr _
  · exact GoodNums.gstr _
  · exact GoodNums.gstr _
  · exact GoodNums.gstr _
  · exact GoodNums.gstr _
  · refine GoodNums.gobj _ ?_
    intro kv2 hkv2
    simp only [List.mem_cons, List.not_mem_nil, or_false] at hkv2
    rcases hkv2 with rfl | rfl | rfl
    · exact GoodNums.gstr _
    · exact GoodNums.gstr _
    · exact GoodNums.gstr _
  · exact goodNums_strMap _
  · exact goodNums_actionArr _
  · refine GoodNums.gobj _ ?_
    intro kv2 hkv2
    simp only [List.mem_cons, List.not_mem_nil, or_false] at hkv2
    rcases hkv2 with rfl | rfl
    · exact GoodNums.gbool _
    · exact goodNums_strMap _
  · refine GoodNums.gobj _ ?_
    intro kv2 hkv2
    simp only [List.mem_cons, List.not_mem_nil, or_false] at hkv2
    rcases hkv2 with rfl | rfl | rfl
    · exact GoodNums.gbool _
    · exact GoodNums.gstr _
    · exact goodNums_num_any _ h
  · refine GoodNums.gobj _ ?_
    intro kv2 hkv2
    simp only [List.mem_cons, List.not_mem_nil, or_false] at hkv2
    rcases hkv2 with rfl | rfl | rfl | rfl
    · exact GoodNums.gbool _
    · exact GoodNums.gbool _
    · exact GoodNums.gbool _
    · exact goodNums_strMap _
  · exact goodNums_starterArr _
  · exact goodNums_strMap _
  · exact goodNums_strMap _
  · exact GoodNums.gstr _

/-- C7 counterexample: with the retention field set to "Infinity", the derived
dataRetentionDays is Infinity, `JSON.stringify` writes it as `null`, and
parsing the exported text back does not recover the original document. -/
theorem json_roundtrip_cex :
    ¬ (jsonParse (copyJSON { initialState with retention := "Infinity" } "T") =
        some (docVal (output { initialState with retention := "Infinity" }
          "T"))) := by
  intro hcontra
  have hret : retentionDays "Infinity" = JsNum.inf := by decide
  have hg : GoodNums (docVal (output
      { initialState with retention := "Infinity" } "T")) := by
    refine goodNums_docVal _ ?_
    intro q hq
    rw [show (output { initialState with retention := "Infinity" }
        "T").memory.dataRetentionDays = retentionDays "Infinity" from rfl,
      hret] at hq
    exact JsNum.noConfusion hq
  have hps := jsonParse_stringify _ hg
  have hcopy : copyJSON { initialState with retention := "Infinity" } "T" =
      jsonStringify2 (docVal (output
        { initialState with retention := "Infinity" } "T")) := rfl
  rw [hcopy, hps] at hcontra
  have h3 : normVal (docVal (output
      { initialState with retention := "Infinity" } "T")) =
      docVal (output { initialState with retention := "Infinity" } "T") :=
    Option.some.inj hcontra
  have h4 := congrArg
    (fun v => (objGet "memory" v).bind (objGet "dataRetentionDays")) h3
  have hB : (fun v => (objGet "memory" v).bind (objGet "dataRetentionDays"))
      (normVal (docVal (output { initialState with retention := "Infinity" }
        "T"))) =
      some (normVal (JsVal.num (retentionDays "Infinity"))) := rfl
  have hA : (fun v => (objGet "memory" v).bind (objGet "dataRetentionDays"))
      (docVal (output { initialState with retention := "Infinity" } "T")) =
      some (JsVal.num (retentionDays "Infinity")) := rfl
  have h5 : some (normVal (JsVal.num (retentionDays "Infinity"))) =
      some (JsVal.num (retentionDays "Infinity")) :=
    hB.symm.trans (h4.trans hA)
  rw [hret] at h5
  exact JsVal.noConfusion (Option.some.inj
    (show (some JsVal.null : Option JsVal) = some (JsVal.num JsNum.inf)
      from h5))

/-- C7 (amended): provided the coerced retention value is finite (the only way
it is not is a retention text that parses to Infinity), serializing the
derived output document with `JSON.stringify(·, null, 2)` and parsing the
text back yields exactly the document that was serialized; the createdAt
caveat is subsumed by quantifying over the derivation instant `now`. -/
theorem json_roundtrip (s : GenState) (now : String)
    (hfin : retentionDays s.retention ≠ JsNum.inf) :
    jsonParse (copyJSON s now) = some (docVal (output s now)) := by
  rcases retentionDays_classify s.retention with hinf | ⟨q, hq, hq0, hdec⟩
  · exact absurd hinf hfin
  · have hret : (output s now).memory.dataRetentionDays = JsNum.fin q := hq
    have hg : GoodNums (docVal (output s now)) := by
      refine goodNums_docVal _ ?_
      intro q' hq'
      rw [hret] at hq'
      exact (JsNum.fin.inj hq') ▸ ⟨hq0, hdec⟩
    rw [show copyJSON s now = jsonStringify2 (docVal (output s now)) from rfl,
      jsonParse_stringify _ hg, normVal_docVal _ q hret]

theorem json_roundtrip_witness :
    retentionDays initialState.retention ≠ JsNum.inf ∧
      jsonParse (copyJSON initialState "2024-01-01T00:00:00.000Z") =
        some (docVal (output initialState "2024-01-01T00:00:00.000Z")) :=
  ⟨by decide, json_roundtrip initialState "2024-01-01T00:00:00.000Z"
    (by decide)⟩
